import Mathlib

/-! # shard-secret-phrase: the shard codec of `main.go`

A shallow embedding of the two commands of `main.go` (`split` and `assemble`).

* Go strings and byte buffers are lists of byte values (`Nat`, each below 256).
* A Go slice is a window (`off`, `len`) on a backing array; `append` either writes
  into that array (when the capacity suffices) or builds a new one, exactly as
  the Go specification prescribes, so that a write through one slice is seen by
  every slice sharing the array.
* The libraries the program calls (`strconv`, `bip39`, `shamir`) are fields of an
  environment `Env`; each returns Go's pair of a value and an optional error.
* `log.Fatalf` and `panic` end the run with a `Failure`; each run records the
  library calls and the writes to standard output, in order, as a list of `Event`.
-/

namespace ShardSecretPhrase

/-- A Go string or `[]byte` value: its bytes in order. -/
abbrev Str := List Nat

/-- A Go `error` value that is not nil. -/
abbrev GoError := String

/-- Every element is a byte value. -/
def IsBytes (l : List Nat) : Prop := ∀ x ∈ l, x < 256

instance (l : List Nat) : Decidable (IsBytes l) := by
  unfold IsBytes; infer_instance

/-- A Go `[]byte` slice: the backing array `arr`, the index `off` in it of the
slice's first element, and the slice's length. -/
structure Slice where
  arr : List Nat
  off : Nat
  len : Nat
deriving DecidableEq, Repr

namespace Slice

/-- Go `cap(s)`: the backing array from the slice's first element to its end. -/
def cap (s : Slice) : Nat := s.arr.length - s.off

/-- The elements `s[0], ..., s[len(s)-1]`. -/
def bytes (s : Slice) : List Nat := (s.arr.drop s.off).take s.len

/-- The slice lies within its backing array: `len(s) ≤ cap(s)`. -/
def WF (s : Slice) : Prop := s.off + s.len ≤ s.arr.length

instance (s : Slice) : Decidable s.WF := by
  unfold WF; infer_instance

/-- A slice that owns a fresh array holding exactly `l` (`len = cap`), as `make` gives. -/
def ofList (l : List Nat) : Slice := ⟨l, 0, l.length⟩

/-- Go `s[lo:hi]` (for `lo ≤ hi ≤ cap(s)`): same array, capacity `cap(s) - lo`. -/
def slice (s : Slice) (lo hi : Nat) : Slice := ⟨s.arr, s.off + lo, hi - lo⟩

/-- Go `s[lo:]`, that is `s[lo:len(s)]`. -/
def sliceFrom (s : Slice) (lo : Nat) : Slice := s.slice lo s.len

end Slice

/-- Go `append(s, xs...)`: when `len(s) + len(xs) ≤ cap(s)` the elements are written
into the backing array of `s` right after its last element and the result shares
that array; otherwise the result owns a new array with the old elements and `xs`. -/
def goAppend (s : Slice) (xs : List Nat) : Slice :=
  if s.len + xs.length ≤ s.cap then
    ⟨s.arr.take (s.off + s.len) ++ xs ++ s.arr.drop (s.off + s.len + xs.length),
      s.off, s.len + xs.length⟩
  else
    ⟨s.bytes ++ xs, 0, s.len + xs.length⟩

namespace strings

/-- Go `strings.Split(s, sep)` for a one-byte separator: the pieces of `s` between
the occurrences of `sep`; one more piece than there are separators, so `Split("")`
is one empty string. The result has `cap = len`. -/
def Split : Str → Nat → List Str
  | [], _ => [[]]
  | c :: cs, sep =>
    if c = sep then [] :: Split cs sep
    else
      match Split cs sep with
      | w :: ws => (c :: w) :: ws
      | [] => [[c]]

/-- Go `strings.Join(elems, sep)` for a one-byte separator. -/
def Join : List Str → Nat → Str
  | [], _ => []
  | [w], _ => w
  | w :: v :: ws, sep => w ++ sep :: Join (v :: ws) sep

end strings

/-- The libraries of `main.go`, each function returning Go's (value, error) pair. -/
structure Env where
  /-- Go `strconv.Atoi`. -/
  Atoi : Str → Int × Option GoError
  /-- Go `bip39.EntropyFromMnemonic`. -/
  EntropyFromMnemonic : Str → Slice × Option GoError
  /-- Go `bip39.NewMnemonic`. -/
  NewMnemonic : List Nat → Str × Option GoError
  /-- Go `shamir.Split(secret, parts, threshold)`; every share owns its array. -/
  Split : List Nat → Int → Int → List Slice × Option GoError
  /-- Go `shamir.Combine(parts)`. -/
  Combine : List (List Nat) → List Nat × Option GoError

deriving instance DecidableEq for Except

/-- What a run does that is visible outside: a library call or a write to stdout. -/
inductive Event where
  | EntropyFromMnemonic (mnemonic : Str)
  | NewMnemonic (entropy : List Nat)
  | Split (secret : List Nat) (parts threshold : Int)
  | Combine (parts : List (List Nat))
  | stdout (text : Str)
deriving DecidableEq, Repr

/-- How a run ends early: one constructor per `log.Fatalf` and `panic` of `main.go`,
and the two runtime panics of slicing and indexing. -/
inductive Failure where
  /-- Line 37: the first argument does not parse. -/
  | fatalThreshold (err : GoError)
  /-- Line 42: the second argument does not parse. -/
  | fatalNumShares (err : GoError)
  /-- Line 46: `threshold > numShares`. -/
  | fatalScheme
  /-- Line 53: reading the secret from stdin failed. -/
  | fatalReadSecret (err : GoError)
  /-- Line 60: `shamir.Split` returned an error. -/
  | fatalSplit (err : GoError)
  /-- Line 79: `panic(err)` after `bip39.NewMnemonic` on a chunk. -/
  | panicNewMnemonic (err : GoError)
  /-- Line 103: reading the shards from stdin failed. -/
  | fatalReadShards (err : GoError)
  /-- Line 118: `bip39.EntropyFromMnemonic` rejected the word group at `j` of line `i`. -/
  | fatalChunk (j i : Nat) (err : GoError)
  /-- Runtime panic: slice bounds out of range. -/
  | panicSliceBounds
  /-- Runtime panic: index out of range. -/
  | panicIndex
  /-- Line 129: `shamir.Combine` returned an error. -/
  | fatalCombine (err : GoError)
  /-- Line 134: `bip39.NewMnemonic` rejected the recovered entropy. -/
  | fatalConvert (err : GoError)
deriving DecidableEq, Repr

/-- A finished run: its events in order, and the failure that ended it, if any. -/
structure Outcome where
  trace : List Event
  failure : Option Failure
deriving DecidableEq, Repr

/-- The text an event writes to standard output. -/
def Event.written : Event → Str
  | .stdout text => text
  | _ => []

/-- Everything a list of events wrote to standard output. -/
def written : List Event → Str
  | [] => []
  | e :: es => e.written ++ written es

namespace split

/-- Lines 68-76, one pass of the chunk loop at offset `j`: the 20-byte slice handed to
`bip39.NewMnemonic`, and the shard afterwards. `padding` is `19 - len(chunk)` zero
bytes from `make` followed by `byte(len(chunk))`, in an array of its own. `chunk`
shares the array of `shard`, so when `append(chunk, padding...)` stays within the
capacity of `chunk` it writes into the array `shard` reads from, and `shard` sees the
array as `append` left it; otherwise `shard` is untouched. -/
def frame (shard : Slice) (j : Nat) : Slice × Slice :=
  let chunk := if j + 19 > shard.len then shard.sliceFrom j else shard.slice j (j + 19)
  let padding := List.replicate (19 - chunk.len) 0 ++ [chunk.len % 256]
  let chunk' := goAppend chunk padding
  (chunk',
    if chunk.len + padding.length ≤ chunk.cap then { shard with arr := chunk'.arr } else shard)

/-- Lines 67-82 without the mnemonic encoder: the chunks in order and the shard after
the loop. `fuel` bounds the passes; `len(shard)` passes always suffice. -/
def frameLoop : Nat → Slice → Nat → List (List Nat) × Slice
  | 0, shard, _ => ([], shard)
  | fuel + 1, shard, j =>
    if j < shard.len then
      let (chunk, shard') := frame shard j
      let (chunks, final) := frameLoop fuel shard' (j + 19)
      (chunk.bytes :: chunks, final)
    else ([], shard)

/-- The chunks the loop of lines 67-82 builds for one shard. -/
def chunks (shard : Slice) : List (List Nat) := (frameLoop shard.len shard 0).1

/-- Lines 67-82: the loop over one shard from offset `j`, with the mnemonics collected
so far in `shardMnemonicChunks`. -/
def encodeLoop (env : Env) : Nat → Slice → Nat → List Str → List Event × Except Failure (List Str)
  | 0, _, _, shardMnemonicChunks => ([], .ok shardMnemonicChunks)
  | fuel + 1, shard, j, shardMnemonicChunks =>
    if j < shard.len then
      let (chunk, shard') := frame shard j
      match env.NewMnemonic chunk.bytes with
      | (_, some err) => ([.NewMnemonic chunk.bytes], .error (.panicNewMnemonic err))
      | (chunkBIP39, none) =>
        let (t, r) := encodeLoop env fuel shard' (j + 19) (shardMnemonicChunks ++ [chunkBIP39])
        (Event.NewMnemonic chunk.bytes :: t, r)
    else ([], .ok shardMnemonicChunks)

/-- Lines 66-84 for one shard: the loop from offset 0, then the mnemonics of its
chunks joined by single spaces (the text line 84 prints before the newline). -/
def encodeShard (env : Env) (shard : Slice) : List Event × Except Failure Str :=
  match encodeLoop env shard.len shard 0 [] with
  | (t, .error f) => (t, .error f)
  | (t, .ok shardMnemonicChunks) => (t, .ok (strings.Join shardMnemonicChunks 32))

/-- Lines 63-85: every shard is encoded and its line printed before the next one. -/
def printLoop (env : Env) : List Slice → List Event × Option Failure
  | [] => ([], none)
  | shard :: rest =>
    match encodeShard env shard with
    | (t, .error f) => (t, some f)
    | (t, .ok line) =>
      let (t', r) := printLoop env rest
      (t ++ Event.stdout (line ++ [10]) :: t', r)

/-- Lines 34-86, the command `split N M` on its two arguments and on what
`io.ReadAll(os.Stdin)` returned. The error of `bip39.EntropyFromMnemonic` (line 56) is
overwritten by line 58 without being read. -/
def Run (env : Env) (arg0 arg1 : Str) (stdin : Str × Option GoError) : Outcome :=
  match env.Atoi arg0 with
  | (_, some err) => ⟨[], some (.fatalThreshold err)⟩
  | (threshold, none) =>
    match env.Atoi arg1 with
    | (_, some err) => ⟨[], some (.fatalNumShares err)⟩
    | (numShares, none) =>
      if threshold > numShares then ⟨[], some .fatalScheme⟩
      else
        match stdin with
        | (_, some err) => ⟨[], some (.fatalReadSecret err)⟩
        | (mnemonic, none) =>
          let entropy := (env.EntropyFromMnemonic mnemonic).1
          match env.Split entropy.bytes numShares threshold with
          | (_, some err) =>
            ⟨[.EntropyFromMnemonic mnemonic, .Split entropy.bytes numShares threshold],
              some (.fatalSplit err)⟩
          | (shards, none) =>
            let (t, r) := printLoop env shards
            ⟨.EntropyFromMnemonic mnemonic :: .Split entropy.bytes numShares threshold :: t, r⟩

end split

namespace assemble

/-- Line 121, `chunk[0:int(chunk[len(chunk)-1])]`: the index panics on an empty
chunk, the slice expression panics when the bound exceeds `cap(chunk)`. -/
def payload (chunk : Slice) : Except Failure (List Nat) :=
  if chunk.len = 0 then .error .panicIndex
  else
    let L := chunk.arr.getD (chunk.off + (chunk.len - 1)) 0
    if L > chunk.cap then .error .panicSliceBounds
    else .ok (chunk.slice 0 L).bytes

/-- Lines 114-122: the loop over the words of line `i` from word `j`, with the bytes
recovered so far in `shard`. `mnemonicWords[j:j+15]` panics when `j+15` exceeds the
capacity of `mnemonicWords`, which is its length. -/
def decodeLoop (env : Env) (i : Nat) (mnemonicWords : List Str) :
    Nat → Nat → List Nat → List Event × Except Failure (List Nat)
  | 0, _, shard => ([], .ok shard)
  | fuel + 1, j, shard =>
    if j < mnemonicWords.length then
      if j + 15 > mnemonicWords.length then ([], .error .panicSliceBounds)
      else
        let chunkMnemonic := strings.Join ((mnemonicWords.drop j).take 15) 32
        match env.EntropyFromMnemonic chunkMnemonic with
        | (_, some err) => ([.EntropyFromMnemonic chunkMnemonic], .error (.fatalChunk j i err))
        | (chunk, none) =>
          match payload chunk with
          | .error f => ([.EntropyFromMnemonic chunkMnemonic], .error f)
          | .ok bytes =>
            let (t, r) := decodeLoop env i mnemonicWords fuel (j + 15) (shard ++ bytes)
            (Event.EntropyFromMnemonic chunkMnemonic :: t, r)
    else ([], .ok shard)

/-- Lines 111-122 for one line of input: its words, then the loop over them. -/
def decodeLine (env : Env) (i : Nat) (mnemonic : Str) : List Event × Except Failure (List Nat) :=
  let mnemonicWords := strings.Split mnemonic 32
  decodeLoop env i mnemonicWords mnemonicWords.length 0 []

/-- Lines 107-125: the loop over the lines, stopping at the first empty one. -/
def linesLoop (env : Env) :
    List Str → Nat → List (List Nat) → List Event × Except Failure (List (List Nat))
  | [], _, providedShards => ([], .ok providedShards)
  | mnemonic :: rest, i, providedShards =>
    if mnemonic.length = 0 then ([], .ok providedShards)
    else
      match decodeLine env i mnemonic with
      | (t, .error f) => (t, .error f)
      | (t, .ok shard) =>
        let (t', r) := linesLoop env rest (i + 1) (providedShards ++ [shard])
        (t ++ t', r)

/-- Lines 99-137, the command `assemble` on what `ioutil.ReadAll(os.Stdin)` returned. -/
def Run (env : Env) (stdin : Str × Option GoError) : Outcome :=
  match stdin with
  | (_, some err) => ⟨[], some (.fatalReadShards err)⟩
  | (allShardMnemonics, none) =>
    match linesLoop env (strings.Split allShardMnemonics 10) 0 [] with
    | (t, .error f) => ⟨t, some f⟩
    | (t, .ok providedShards) =>
      match env.Combine providedShards with
      | (_, some err) => ⟨t ++ [.Combine providedShards], some (.fatalCombine err)⟩
      | (recoveredEntropy, none) =>
        match env.NewMnemonic recoveredEntropy with
        | (_, some err) =>
          ⟨t ++ [.Combine providedShards, .NewMnemonic recoveredEntropy], some (.fatalConvert err)⟩
        | (recoveredMnemonic, none) =>
          ⟨t ++ [.Combine providedShards, .NewMnemonic recoveredEntropy,
              .stdout (recoveredMnemonic ++ [10])], none⟩

/-- The chunk logic of line 121 over a sequence of chunk values, each in an array of
its own as the mnemonic decoder returns it: the payloads concatenated in order. -/
def decodeChunks : List (List Nat) → Except Failure (List Nat)
  | [] => .ok []
  | chunk :: rest =>
    match payload (Slice.ofList chunk) with
    | .error f => .error f
    | .ok bytes =>
      match decodeChunks rest with
      | .error f => .error f
      | .ok more => .ok (bytes ++ more)

/-- Line 116 at `j = 15 * g`: the text handed to the mnemonic decoder for the word group
`g` of a line, `strings.Join(mnemonicWords[j:j+15], " ")`. -/
def group (mnemonicWords : List Str) (g : Nat) : Str :=
  strings.Join ((mnemonicWords.drop (15 * g)).take 15) 32

/-- Lines 116-121 succeed on the word group `g`: the decoder accepts it and the length
byte of the chunk it returns is within the capacity of the chunk. -/
def GroupDecodes (env : Env) (mnemonicWords : List Str) (g : Nat) : Prop :=
  ∃ (chunk : Slice) (bytes : List Nat),
    env.EntropyFromMnemonic (group mnemonicWords g) = (chunk, none) ∧
    payload chunk = .ok bytes

end assemble

/-- The text made of the given lines, each followed by a newline: what a sequence of
`fmt.Printf("%s\n", line)` writes, and what `assemble` is given to read. -/
def unlines : List Str → Str
  | [] => []
  | l :: ls => l ++ 10 :: unlines ls

/-- The layout of a chunk holding `L` payload bytes: 20 bytes, the payload first, zero
bytes up to index 18, and `L` as the last byte. -/
def Framed (chunk : List Nat) (L : Nat) : Prop :=
  chunk.length = 20 ∧ L ≤ 19 ∧ chunk[19]? = some L ∧ ∀ k, L ≤ k → k < 19 → chunk[k]? = some 0

/-- Every event of the list is a call of the mnemonic decoder. -/
def OnlyDecodes (t : List Event) : Prop := ∀ e ∈ t, ∃ m, e = Event.EntropyFromMnemonic m

/-! ## Assumptions on the libraries -/

/-- A sequence of words as a mnemonic library prints them: none is empty and none
holds a space or a newline. -/
def AreWords (ws : List Str) : Prop := ∀ w ∈ ws, w ≠ [] ∧ 32 ∉ w ∧ 10 ∉ w

instance (ws : List Str) : Decidable (AreWords ws) := by
  unfold AreWords; infer_instance

/-- The mnemonic encoder turns every 20-byte input into 15 words joined by single
spaces. -/
def EncodesChunks (env : Env) : Prop :=
  ∀ c : List Nat, c.length = 20 → IsBytes c →
    ∃ ws : List Str, ws.length = 15 ∧ AreWords ws ∧ env.NewMnemonic c = (strings.Join ws 32, none)

/-- The mnemonic codec on chunks: every 20-byte input is encoded as 15 words joined by
single spaces, and decoding those words gives a slice holding the same 20 bytes. -/
def ChunkCodec (env : Env) : Prop :=
  ∀ c : List Nat, c.length = 20 → IsBytes c →
    ∃ ws : List Str, ws.length = 15 ∧ AreWords ws ∧
      env.NewMnemonic c = (strings.Join ws 32, none) ∧
      (env.EntropyFromMnemonic (strings.Join ws 32)).2 = none ∧
      (env.EntropyFromMnemonic (strings.Join ws 32)).1.WF ∧
      (env.EntropyFromMnemonic (strings.Join ws 32)).1.bytes = c

/-- What `split` prints for a shard that fits one chunk, and how `assemble` reads it. -/
def SingleChunkLine (env : Env) (s : Slice) (line : Str) : Prop :=
  (∃ ws : List Str, ws.length = 15 ∧ AreWords ws ∧ line = strings.Join ws 32) ∧
    ∀ i, assemble.decodeLine env i line = ([.EntropyFromMnemonic line], .ok s.bytes)

/-! ## A small executable instance of the libraries

`toy` is a mnemonic codec and a threshold sharing scheme that can be run: it shows
that the assumptions made on the libraries can be met, and it lets the two commands be
evaluated on concrete inputs. -/

namespace toy

/-- Decimal digits only, as `strconv.Atoi` reads an unsigned number. -/
def Atoi (s : Str) : Int × Option GoError :=
  if s ≠ [] ∧ s.all (fun c => decide (48 ≤ c ∧ c ≤ 57)) then
    (s.foldl (fun acc c => acc * 10 + ((c - 48 : Nat) : Int)) 0, none)
  else (0, some "invalid syntax")

/-- One byte as two letters of `A..P`, high half first. -/
def letters (b : Nat) : Str := [65 + b / 16, 65 + b % 16]

/-- The letters of every byte, in order. -/
def spell : List Nat → Str
  | [] => []
  | b :: bs => letters b ++ spell bs

/-- The bytes spelled by a sequence of letters. -/
def unspell : Str → List Nat
  | h :: l :: rest => ((h - 65) * 16 + (l - 65)) :: unspell rest
  | _ => []

/-- The words for an entropy of `n` bytes: `3n/4` of them, as in BIP39; each word but
the last spells one byte and the last spells the bytes left. -/
def words (entropy : List Nat) : List Str :=
  let n := entropy.length * 3 / 4
  (entropy.take (n - 1)).map letters ++ [spell (entropy.drop (n - 1))]

/-- Entropy to mnemonic; only the five BIP39 entropy lengths are accepted. -/
def NewMnemonic (entropy : List Nat) : Str × Option GoError :=
  if entropy.length = 16 ∨ entropy.length = 20 ∨ entropy.length = 24 ∨ entropy.length = 28
      ∨ entropy.length = 32 then
    (strings.Join (words entropy) 32, none)
  else ([], some "Entropy length must be [128, 256] and a multiple of 32")

/-- Mnemonic to entropy: accepted when it is the mnemonic of the bytes it spells;
the entropy comes in an array of its own, and is nil on error. -/
def EntropyFromMnemonic (mnemonic : Str) : Slice × Option GoError :=
  let entropy := unspell (mnemonic.filter (fun c => decide (c ≠ 32)))
  if NewMnemonic entropy = (mnemonic, none) ∧ IsBytes entropy then (Slice.ofList entropy, none)
  else (⟨[], 0, 0⟩, some "Invalid mnenomic")

/-- Share `idx` is the secret followed by the tag `idx + 1`, in an array of its own;
the argument checks are those of `shamir.Split`. -/
def Split (secret : List Nat) (parts threshold : Int) : List Slice × Option GoError :=
  if parts < threshold then ([], some "parts cannot be less than threshold")
  else if parts > 255 then ([], some "parts cannot exceed 255")
  else if threshold < 2 then ([], some "threshold must be at least 2")
  else if threshold > 255 then ([], some "threshold cannot exceed 255")
  else if secret.length = 0 then ([], some "cannot split an empty secret")
  else ((List.range parts.toNat).map (fun idx => Slice.ofList (secret ++ [idx + 1])), none)

/-- The secret is the first share without its tag; at least two shares are needed. -/
def Combine (parts : List (List Nat)) : List Nat × Option GoError :=
  match parts with
  | first :: _ :: _ => (first.dropLast, none)
  | _ => ([], some "less than two parts cannot be used to reconstruct the secret")

/-- The toy libraries together. -/
def env : Env := ⟨Atoi, EntropyFromMnemonic, NewMnemonic, Split, Combine⟩

/-- An entropy of 16 bytes. -/
def entropy16 : List Nat := [0, 1, 2, 3, 4, 5, 6, 7, 8, 9, 10, 11, 12, 13, 14, 15]

/-- The 12-word toy mnemonic of `entropy16`. -/
def mnemonic12 : Str := (NewMnemonic entropy16).1

/-- A share of 33 bytes, the length of the shares of a 32-byte secret. -/
def share33 : List Nat := List.range' 1 33

/-- A chunk whose last byte is 20. -/
def chunk20 : List Nat := List.replicate 19 7 ++ [20]

/-- A chunk whose last byte is 21. -/
def chunk21 : List Nat := List.replicate 19 7 ++ [21]

/-- A line of 16 words: the 15 words of a well-formed chunk and one more word. -/
def line16 : Str := (NewMnemonic (List.replicate 16 7 ++ [0, 0, 0, 16])).1 ++ [32, 65, 65]

/-- A well-formed line of 15 words: the mnemonic of a chunk holding 16 payload bytes. -/
def line15 : Str := (NewMnemonic (List.replicate 16 7 ++ [0, 0, 0, 16])).1

/-- A line of 30 words: the 15 words of `chunk21`, whose last byte is 21, and then 15
words that are no mnemonic. -/
def line30 : Str := (NewMnemonic chunk21).1 ++ 32 :: strings.Join (List.replicate 15 [65, 65]) 32

/-- An input of four lines: the first two lines that `split 2 3` prints for `mnemonic12`,
an empty line, and a malformed line. -/
def inputWithBlank : Str :=
  unlines ((strings.Split (written (split.Run env [50] [51] (mnemonic12, none)).trace) 10).take 2
    ++ [[], line16])

/-- A line of 30 words: the 15 words of `line15` and then 15 words that are no mnemonic. -/
def lineTampered : Str := line15 ++ 32 :: strings.Join (List.replicate 15 [65, 65]) 32

/-- A line of 31 words: the 15 words of `line15` twice, and one more word. -/
def line31 : Str := line15 ++ 32 :: line15 ++ [32, 65, 65]

/-- A line of 31 words: the 30 words of `lineTampered` and one more word. -/
def line31Tampered : Str := lineTampered ++ [32, 65, 65]

/-- An entropy of 32 zero bytes. -/
def entropy32 : List Nat := List.replicate 32 0

/-- The 24-word toy mnemonic of `entropy32`. -/
def mnemonic24 : Str := (NewMnemonic entropy32).1

end toy

end ShardSecretPhrase

/-! ## `strings.Split` and `strings.Join` -/

namespace ShardSecretPhrase

theorem strings.Split_ne_nil (s : Str) (sep : Nat) : strings.Split s sep ≠ [] := by
  induction s with
  | nil => simp [strings.Split]
  | cons c cs ih =>
    simp only [strings.Split]
    split
    · simp
    · split <;> simp

theorem strings.Split_of_not_mem (l : Str) (sep : Nat) (h : sep ∉ l) : strings.Split l sep = [l] := by
  induction l with
  | nil => rfl
  | cons c cs ih =>
    simp only [List.mem_cons, not_or] at h
    simp only [strings.Split]
    rw [if_neg (fun e => h.1 e.symm), ih h.2]

theorem strings.Split_append_sep (l rest : Str) (sep : Nat) (h : sep ∉ l) :
    strings.Split (l ++ sep :: rest) sep = l :: strings.Split rest sep := by
  induction l with
  | nil => simp [strings.Split]
  | cons c cs ih =>
    simp only [List.mem_cons, not_or] at h
    rw [List.cons_append]
    simp only [strings.Split]
    rw [if_neg (fun e => h.1 e.symm), ih h.2]

theorem strings.Split_Join (ws : List Str) (sep : Nat) (hne : ws ≠ [])
    (hfree : ∀ w ∈ ws, sep ∉ w) : strings.Split (strings.Join ws sep) sep = ws := by
  induction ws with
  | nil => exact absurd rfl hne
  | cons w rest ih =>
    cases rest with
    | nil =>
      simp only [strings.Join]
      exact strings.Split_of_not_mem _ _ (hfree w (by simp))
    | cons v vs =>
      simp only [strings.Join]
      rw [strings.Split_append_sep _ _ _ (hfree w (by simp))]
      rw [ih (by simp) (fun x hx => hfree x (List.mem_cons_of_mem _ hx))]

theorem strings.not_mem_Join (ws : List Str) (sep x : Nat) (hx : x ≠ sep)
    (hfree : ∀ w ∈ ws, x ∉ w) : x ∉ strings.Join ws sep := by
  induction ws with
  | nil => simp [strings.Join]
  | cons w rest ih =>
    cases rest with
    | nil =>
      simp only [strings.Join]
      exact hfree w (by simp)
    | cons v vs =>
      simp only [strings.Join, List.mem_append, List.mem_cons, not_or]
      exact ⟨hfree w (by simp), hx, ih (fun y hy => hfree y (List.mem_cons_of_mem _ hy))⟩

theorem strings.Join_length_pos (ws : List Str) (sep : Nat) (h : 2 ≤ ws.length) :
    0 < (strings.Join ws sep).length := by
  match ws, h with
  | w :: v :: vs, _ => simp [strings.Join]

/-! ## Slices and `append` -/

theorem Slice.bytes_length (s : Slice) (h : s.WF) : s.bytes.length = s.len := by
  unfold Slice.WF at h
  simp [Slice.bytes]; omega

theorem goAppend_len (s : Slice) (xs : List Nat) : (goAppend s xs).len = s.len + xs.length := by
  unfold goAppend; split <;> rfl

theorem goAppend_bytes (s : Slice) (xs : List Nat) (h : s.WF) :
    (goAppend s xs).bytes = s.bytes ++ xs := by
  have hl := s.bytes_length h
  unfold Slice.WF at h
  unfold goAppend
  split
  · rename_i hfit
    simp only [Slice.bytes, Slice.cap] at *
    have h1 : (List.take (s.off + s.len) s.arr).length = s.off + s.len := by
      simp; omega
    rw [List.append_assoc, List.drop_append_of_le_length (by omega)]
    rw [List.drop_take]
    simp only [Nat.add_sub_cancel_left]
    rw [← List.append_assoc, List.take_append_of_le_length (by simp; omega)]
    rw [List.take_of_length_le (by simp)]
  · simp only [Slice.bytes, List.drop_zero]
    rw [List.take_of_length_le]
    simp only [Slice.bytes] at hl
    simp [hl]

theorem Slice.slice_bytes (s : Slice) (lo hi : Nat) (h : hi ≤ s.len) :
    (s.slice lo hi).bytes = (s.bytes.drop lo).take (hi - lo) := by
  simp only [Slice.slice, Slice.bytes]
  rw [List.drop_take, List.drop_drop, List.take_take]
  congr 1
  omega

theorem split.frame_snd_len (shard : Slice) (j : Nat) : (split.frame shard j).2.len = shard.len := by
  unfold split.frame
  simp only
  split_ifs <;> rfl

theorem split.frame_snd_off (shard : Slice) (j : Nat) : (split.frame shard j).2.off = shard.off := by
  unfold split.frame
  simp only
  split_ifs <;> rfl

theorem goAppend_arr_length (s : Slice) (xs : List Nat) (h : s.len + xs.length ≤ s.cap) :
    (goAppend s xs).arr.length = s.arr.length := by
  unfold goAppend
  rw [if_pos h]
  simp only [Slice.cap] at h
  simp
  omega

theorem split.frame_snd_arr_length (shard : Slice) (j : Nat) :
    (split.frame shard j).2.arr.length = shard.arr.length := by
  unfold split.frame
  simp only
  split_ifs with h1 h2 h2
  · exact goAppend_arr_length _ _ h2
  · rfl
  · exact goAppend_arr_length _ _ h2
  · rfl

theorem split.frame_snd_WF (shard : Slice) (j : Nat) (h : shard.WF) : (split.frame shard j).2.WF := by
  unfold Slice.WF at *
  rw [split.frame_snd_len, split.frame_snd_off, split.frame_snd_arr_length]
  exact h

theorem split.frame_fst_bytes (shard : Slice) (j : Nat) (h : shard.WF) (hj : j < shard.len) :
    (split.frame shard j).1.bytes =
      (shard.bytes.drop j).take 19 ++ List.replicate (19 - min 19 (shard.len - j)) 0
        ++ [min 19 (shard.len - j)] := by
  unfold split.frame
  simp only
  have hWF := h
  unfold Slice.WF at h
  rw [goAppend_bytes]
  · split
    · rename_i hlt
      have e : min 19 (shard.len - j) = shard.len - j := by omega
      rw [e]
      simp only [Slice.sliceFrom]
      rw [Slice.slice_bytes _ _ _ (le_refl _)]
      have hb := shard.bytes_length hWF
      rw [List.take_of_length_le (by simp [hb]), List.take_of_length_le (by simp [hb]; omega)]
      simp only [Slice.slice, List.append_assoc]
      congr 3
      omega
    · rename_i hge
      have e : min 19 (shard.len - j) = 19 := by omega
      rw [e]
      rw [Slice.slice_bytes _ _ _ (by omega)]
      simp [Slice.slice]
  · unfold Slice.WF
    split <;> simp [Slice.sliceFrom, Slice.slice] <;> omega

/-! ## The chunk loop of `split` -/

theorem split.frameLoop_succ (fuel : Nat) (shard : Slice) (j : Nat) (hj : j < shard.len) :
    split.frameLoop (fuel + 1) shard j =
      ((split.frame shard j).1.bytes :: (split.frameLoop fuel (split.frame shard j).2 (j + 19)).1,
        (split.frameLoop fuel (split.frame shard j).2 (j + 19)).2) := by
  simp only [split.frameLoop, if_pos hj]

theorem split.frameLoop_done (fuel : Nat) (shard : Slice) (j : Nat) (hj : ¬ j < shard.len) :
    split.frameLoop fuel shard j = ([], shard) := by
  cases fuel with
  | zero => rfl
  | succ n => simp only [split.frameLoop, if_neg hj]

theorem split.frameLoop_length (fuel : Nat) (shard : Slice) (j : Nat) (hfuel : shard.len - j ≤ fuel) :
    (split.frameLoop fuel shard j).1.length = (shard.len - j + 18) / 19 := by
  induction fuel generalizing shard j with
  | zero =>
    rw [split.frameLoop_done _ _ _ (by omega)]
    simp only [List.length_nil]
    omega
  | succ n ih =>
    by_cases hj : j < shard.len
    · rw [split.frameLoop_succ _ _ _ hj]
      simp only [List.length_cons]
      rw [ih _ _ (by rw [split.frame_snd_len]; omega), split.frame_snd_len]
      omega
    · rw [split.frameLoop_done _ _ _ hj]
      simp only [List.length_nil]
      omega

theorem split.frameLoop_fuel (f1 f2 : Nat) (shard : Slice) (j : Nat)
    (h1 : shard.len - j ≤ f1) (h2 : shard.len - j ≤ f2) :
    split.frameLoop f1 shard j = split.frameLoop f2 shard j := by
  induction f1 generalizing f2 shard j with
  | zero =>
    rw [split.frameLoop_done _ _ _ (by omega), split.frameLoop_done _ _ _ (by omega)]
  | succ n ih =>
    by_cases hj : j < shard.len
    · obtain ⟨m, rfl⟩ : ∃ m, f2 = m + 1 := ⟨f2 - 1, by omega⟩
      rw [split.frameLoop_succ _ _ _ hj, split.frameLoop_succ _ _ _ hj]
      rw [ih m _ _ (by rw [split.frame_snd_len]; omega) (by rw [split.frame_snd_len]; omega)]
    · rw [split.frameLoop_done _ _ _ hj, split.frameLoop_done _ _ _ hj]

theorem split.frameLoop_getElem? (fuel : Nat) (shard : Slice) (j : Nat) (h : shard.WF)
    (i : Nat) (c : List Nat) (hc : (split.frameLoop fuel shard j).1[i]? = some c) :
    j + 19 * i < shard.len ∧ ∃ p : List Nat, p.length = min 19 (shard.len - (j + 19 * i)) ∧
      c = p ++ List.replicate (19 - p.length) 0 ++ [p.length] := by
  induction fuel generalizing shard j i with
  | zero => simp [split.frameLoop] at hc
  | succ n ih =>
    by_cases hj : j < shard.len
    · rw [split.frameLoop_succ _ _ _ hj] at hc
      cases i with
      | zero =>
        simp only [List.getElem?_cons_zero, Option.some.injEq] at hc
        refine ⟨by omega, (shard.bytes.drop j).take 19, ?_, ?_⟩
        · have := shard.bytes_length h
          simp [this]
        · rw [← hc, split.frame_fst_bytes _ _ h hj]
          have := shard.bytes_length h
          simp [this]
      | succ k =>
        simp only [List.getElem?_cons_succ] at hc
        have := ih _ _ (split.frame_snd_WF _ _ h) _ hc
        rw [split.frame_snd_len] at this
        have e : j + 19 + 19 * k = j + 19 * (k + 1) := by ring
        rw [e] at this
        exact this
    · rw [split.frameLoop_done _ _ _ hj] at hc
      simp at hc

theorem split.encodeLoop_succ_ok (env : Env) (fuel : Nat) (shard : Slice) (j : Nat) (acc : List Str)
    (hj : j < shard.len) (m : Str) (hm : env.NewMnemonic (split.frame shard j).1.bytes = (m, none)) :
    split.encodeLoop env (fuel + 1) shard j acc =
      (Event.NewMnemonic (split.frame shard j).1.bytes ::
          (split.encodeLoop env fuel (split.frame shard j).2 (j + 19) (acc ++ [m])).1,
        (split.encodeLoop env fuel (split.frame shard j).2 (j + 19) (acc ++ [m])).2) := by
  simp only [split.encodeLoop, if_pos hj, hm]

theorem split.encodeLoop_succ_err (env : Env) (fuel : Nat) (shard : Slice) (j : Nat) (acc : List Str)
    (hj : j < shard.len) (m : Str) (err : GoError)
    (hm : env.NewMnemonic (split.frame shard j).1.bytes = (m, some err)) :
    split.encodeLoop env (fuel + 1) shard j acc =
      ([Event.NewMnemonic (split.frame shard j).1.bytes], .error (.panicNewMnemonic err)) := by
  simp only [split.encodeLoop, if_pos hj, hm]

theorem split.encodeLoop_done (env : Env) (fuel : Nat) (shard : Slice) (j : Nat) (acc : List Str)
    (hj : ¬ j < shard.len) : split.encodeLoop env fuel shard j acc = ([], .ok acc) := by
  cases fuel with
  | zero => rfl
  | succ n => simp only [split.encodeLoop, if_neg hj]

theorem split.encodeLoop_ok (env : Env) (fuel : Nat) (shard : Slice) (j : Nat) (acc : List Str)
    (hacc : ∀ c ∈ (split.frameLoop fuel shard j).1, (env.NewMnemonic c).2 = none) :
    split.encodeLoop env fuel shard j acc =
      ((split.frameLoop fuel shard j).1.map Event.NewMnemonic,
        .ok (acc ++ (split.frameLoop fuel shard j).1.map (fun c => (env.NewMnemonic c).1))) := by
  induction fuel generalizing shard j acc with
  | zero => simp [split.encodeLoop, split.frameLoop]
  | succ n ih =>
    by_cases hj : j < shard.len
    · rw [split.frameLoop_succ _ _ _ hj] at hacc ⊢
      have h0 := hacc _ (List.mem_cons_self _ _)
      have hm : env.NewMnemonic (split.frame shard j).1.bytes =
          ((env.NewMnemonic (split.frame shard j).1.bytes).1, none) := by
        rw [← h0]
      rw [split.encodeLoop_succ_ok _ _ _ _ _ hj _ hm]
      rw [ih _ _ _ (fun c hc => hacc c (List.mem_cons_of_mem _ hc))]
      simp
    · rw [split.frameLoop_done _ _ _ hj, split.encodeLoop_done _ _ _ _ _ hj]
      simp

theorem split.encodeLoop_trace_initial (env : Env) (fuel : Nat) (shard : Slice) (j : Nat)
    (acc : List Str) :
    (split.encodeLoop env fuel shard j acc).1 <+:
      (split.frameLoop fuel shard j).1.map Event.NewMnemonic := by
  induction fuel generalizing shard j acc with
  | zero => simp [split.encodeLoop, split.frameLoop]
  | succ n ih =>
    by_cases hj : j < shard.len
    · rw [split.frameLoop_succ _ _ _ hj]
      rcases h : env.NewMnemonic (split.frame shard j).1.bytes with ⟨m, _ | err⟩
      · rw [split.encodeLoop_succ_ok _ _ _ _ _ hj _ h]
        simp only [List.map_cons]
        exact (List.prefix_cons_inj _).2 (ih _ _ _)
      · rw [split.encodeLoop_succ_err _ _ _ _ _ hj _ _ h]
        simp only [List.map_cons]
        exact (List.prefix_cons_inj _).2 (List.nil_prefix)
    · rw [split.frameLoop_done _ _ _ hj, split.encodeLoop_done _ _ _ _ _ hj]
      simp

/-! ## The word loop of `assemble` -/

theorem Slice.getD_arr (s : Slice) (k : Nat) (hk : k < s.len) :
    s.arr.getD (s.off + k) 0 = s.bytes.getD k 0 := by
  simp only [Slice.bytes, List.getD_eq_getElem?_getD]
  rw [List.getElem?_take_of_lt hk, List.getElem?_drop]

theorem assemble.payload_framed (s : Slice) (hWF : s.WF) (p : List Nat) (hp : p.length ≤ 19)
    (hb : s.bytes = p ++ List.replicate (19 - p.length) 0 ++ [p.length]) :
    assemble.payload s = .ok p := by
  have hlen : s.len = 20 := by
    rw [← s.bytes_length hWF, hb]
    simp
    omega
  have hL : s.arr.getD (s.off + (s.len - 1)) 0 = p.length := by
    rw [s.getD_arr _ (by omega), hb, hlen]
    rw [List.getD_eq_getElem?_getD, List.getElem?_append_right (by simp; omega)]
    have : 20 - 1 - (p ++ List.replicate (19 - p.length) 0).length = 0 := by
      simp; omega
    rw [this]
    rfl
  unfold Slice.WF at hWF
  unfold assemble.payload
  rw [if_neg (by omega)]
  simp only [hL]
  rw [if_neg (by unfold Slice.cap; omega)]
  congr 1
  have : (s.slice 0 p.length).bytes = s.bytes.take p.length := by
    simp only [Slice.slice, Slice.bytes, Nat.add_zero, Nat.sub_zero, List.take_take]
    congr 1
    omega
  rw [this, hb, List.append_assoc, List.take_left']
  rfl

theorem assemble.decodeLoop_done (env : Env) (i : Nat) (ws : List Str) (fuel j : Nat)
    (shard : List Nat) (hj : ¬ j < ws.length) :
    assemble.decodeLoop env i ws fuel j shard = ([], .ok shard) := by
  cases fuel with
  | zero => rfl
  | succ n => simp only [assemble.decodeLoop, if_neg hj]

theorem assemble.decodeLoop_bounds (env : Env) (i : Nat) (ws : List Str) (fuel j : Nat)
    (shard : List Nat) (hj : j < ws.length) (hb : j + 15 > ws.length) :
    assemble.decodeLoop env i ws (fuel + 1) j shard = ([], .error .panicSliceBounds) := by
  simp only [assemble.decodeLoop, if_pos hj, if_pos hb]

theorem assemble.decodeLoop_reject (env : Env) (i : Nat) (ws : List Str) (fuel j : Nat)
    (shard : List Nat) (hj : j < ws.length) (hb : ¬ j + 15 > ws.length) (chunk : Slice)
    (err : GoError)
    (hd : env.EntropyFromMnemonic (strings.Join ((ws.drop j).take 15) 32) = (chunk, some err)) :
    assemble.decodeLoop env i ws (fuel + 1) j shard =
      ([.EntropyFromMnemonic (strings.Join ((ws.drop j).take 15) 32)],
        .error (.fatalChunk j i err)) := by
  simp only [assemble.decodeLoop, if_pos hj, if_neg hb, hd]

theorem assemble.decodeLoop_panic (env : Env) (i : Nat) (ws : List Str) (fuel j : Nat)
    (shard : List Nat) (hj : j < ws.length) (hb : ¬ j + 15 > ws.length) (chunk : Slice)
    (hd : env.EntropyFromMnemonic (strings.Join ((ws.drop j).take 15) 32) = (chunk, none))
    (f : Failure) (hp : assemble.payload chunk = .error f) :
    assemble.decodeLoop env i ws (fuel + 1) j shard =
      ([.EntropyFromMnemonic (strings.Join ((ws.drop j).take 15) 32)], .error f) := by
  simp only [assemble.decodeLoop, if_pos hj, if_neg hb, hd, hp]

theorem assemble.decodeLoop_step (env : Env) (i : Nat) (ws : List Str) (fuel j : Nat)
    (shard : List Nat) (hj : j < ws.length) (hb : ¬ j + 15 > ws.length) (chunk : Slice)
    (hd : env.EntropyFromMnemonic (strings.Join ((ws.drop j).take 15) 32) = (chunk, none))
    (bytes : List Nat) (hp : assemble.payload chunk = .ok bytes) :
    assemble.decodeLoop env i ws (fuel + 1) j shard =
      (Event.EntropyFromMnemonic (strings.Join ((ws.drop j).take 15) 32) ::
          (assemble.decodeLoop env i ws fuel (j + 15) (shard ++ bytes)).1,
        (assemble.decodeLoop env i ws fuel (j + 15) (shard ++ bytes)).2) := by
  simp only [assemble.decodeLoop, if_pos hj, if_neg hb, hd, hp]

/-! ## Shards that fit one chunk -/

theorem IsBytes_append {a b : List Nat} (ha : IsBytes a) (hb : IsBytes b) : IsBytes (a ++ b) := by
  intro x hx
  rcases List.mem_append.1 hx with h | h
  · exact ha x h
  · exact hb x h

theorem IsBytes_framed (p : List Nat) (hp : IsBytes p) (h19 : p.length ≤ 19) :
    IsBytes (p ++ List.replicate (19 - p.length) 0 ++ [p.length]) := by
  refine IsBytes_append (IsBytes_append hp ?_) ?_
  · intro x hx
    rw [List.eq_of_mem_replicate hx]
    omega
  · intro x hx
    simp only [List.mem_singleton] at hx
    omega

theorem AreWords.sep_free {ws : List Str} (h : AreWords ws) : ∀ w ∈ ws, 32 ∉ w :=
  fun w hw => (h w hw).2.1

theorem AreWords.newline_free {ws : List Str} (h : AreWords ws) : ∀ w ∈ ws, 10 ∉ w :=
  fun w hw => (h w hw).2.2

theorem split.frame_zero_bytes (s : Slice) (hWF : s.WF) (h1 : 1 ≤ s.len) (h19 : s.len ≤ 19) :
    (split.frame s 0).1.bytes = s.bytes ++ List.replicate (19 - s.len) 0 ++ [s.len] := by
  rw [split.frame_fst_bytes _ _ hWF (by omega)]
  have hl := s.bytes_length hWF
  have e : min 19 (s.len - 0) = s.len := by omega
  rw [e, List.drop_zero, List.take_of_length_le (by omega)]

theorem single_chunk_shard (env : Env) (s : Slice) (hc : ChunkCodec env) (hWF : s.WF)
    (hB : IsBytes s.bytes) (h1 : 1 ≤ s.len) (h19 : s.len ≤ 19) :
    ∃ ws : List Str, ws.length = 15 ∧ AreWords ws ∧
      split.encodeShard env s =
        ([.NewMnemonic (s.bytes ++ List.replicate (19 - s.len) 0 ++ [s.len])],
          .ok (strings.Join ws 32)) ∧
      ∀ i, assemble.decodeLine env i (strings.Join ws 32) =
        ([.EntropyFromMnemonic (strings.Join ws 32)], .ok s.bytes) := by
  have hl := s.bytes_length hWF
  have hfr := split.frame_zero_bytes s hWF h1 h19
  have hcl : (s.bytes ++ List.replicate (19 - s.len) 0 ++ [s.len]).length = 20 := by
    simp [hl]; omega
  have hcb : IsBytes (s.bytes ++ List.replicate (19 - s.len) 0 ++ [s.len]) := by
    have := IsBytes_framed s.bytes hB (by omega)
    rwa [hl] at this
  obtain ⟨ws, hws, hW, henc, hdec, hdWF, hdb⟩ := hc _ hcl hcb
  refine ⟨ws, hws, hW, ?_, ?_⟩
  · have key : ∀ fuel, 1 ≤ fuel → split.encodeLoop env fuel s 0 [] =
        ([.NewMnemonic (s.bytes ++ List.replicate (19 - s.len) 0 ++ [s.len])],
          .ok [strings.Join ws 32]) := by
      intro fuel hfuel
      obtain ⟨n, rfl⟩ : ∃ n, fuel = n + 1 := ⟨fuel - 1, by omega⟩
      rw [split.encodeLoop_succ_ok env n s 0 [] (by omega) _ (by rw [hfr]; exact henc)]
      rw [split.encodeLoop_done _ _ _ _ _ (by rw [split.frame_snd_len]; omega)]
      simp only [hfr, List.nil_append]
    unfold split.encodeShard
    rw [key _ h1]
    rfl
  · intro i
    unfold assemble.decodeLine
    simp only
    rw [strings.Split_Join ws 32 (by intro h; simp [h] at hws) hW.sep_free, hws]
    have hd : env.EntropyFromMnemonic (strings.Join ((ws.drop 0).take 15) 32) =
        ((env.EntropyFromMnemonic (strings.Join ws 32)).1, none) := by
      rw [List.drop_zero, List.take_of_length_le (by omega), ← hdec]
    have hp : assemble.payload (env.EntropyFromMnemonic (strings.Join ws 32)).1 = .ok s.bytes := by
      apply assemble.payload_framed _ hdWF _ (by omega)
      rw [hdb, hl]
    rw [assemble.decodeLoop_step env i ws 14 0 [] (by omega) (by omega) _ hd _ hp]
    rw [assemble.decodeLoop_done _ _ _ _ _ _ (by omega)]
    simp only [List.drop_zero, List.take_of_length_le (le_of_eq hws), List.nil_append]

theorem written_append (a b : List Event) : written (a ++ b) = written a ++ written b := by
  induction a with
  | nil => rfl
  | cons e es ih => simp [written, ih]

theorem written_map_EntropyFromMnemonic (ls : List Str) :
    written (ls.map Event.EntropyFromMnemonic) = [] := by
  induction ls with
  | nil => rfl
  | cons l ls ih => simp [written, Event.written, ih]

theorem split.printLoop_single_chunks (env : Env) (hc : ChunkCodec env) (shards : List Slice)
    (hs : ∀ s ∈ shards, s.WF ∧ IsBytes s.bytes ∧ 1 ≤ s.len ∧ s.len ≤ 19) :
    ∃ lines : List Str, List.Forall₂ (SingleChunkLine env) shards lines ∧
      (split.printLoop env shards).2 = none ∧
      written (split.printLoop env shards).1 = unlines lines := by
  induction shards with
  | nil => exact ⟨[], List.Forall₂.nil, rfl, rfl⟩
  | cons s rest ih =>
    obtain ⟨lines, hF, hnone, hw⟩ := ih (fun x hx => hs x (List.mem_cons_of_mem _ hx))
    obtain ⟨hWF, hB, h1, h19⟩ := hs s (List.mem_cons_self _ _)
    obtain ⟨ws, hws, hW, henc, hdec⟩ := single_chunk_shard env s hc hWF hB h1 h19
    refine ⟨strings.Join ws 32 :: lines, List.Forall₂.cons ⟨⟨ws, hws, hW, rfl⟩, hdec⟩ hF, ?_, ?_⟩
    · simp only [split.printLoop, henc]
      exact hnone
    · simp only [split.printLoop, henc]
      simp only [List.singleton_append, written, Event.written, List.nil_append, unlines, hw]
      simp

theorem Forall₂_getElem? {α β : Type} {R : α → β → Prop} {xs : List α} {ys : List β}
    (h : List.Forall₂ R xs ys) (k : Nat) (y : β) (hy : ys[k]? = some y) :
    ∃ x, xs[k]? = some x ∧ R x y := by
  induction h generalizing k with
  | nil => simp at hy
  | cons hr _ ih =>
    cases k with
    | zero =>
      simp only [List.getElem?_cons_zero, Option.some.injEq] at hy
      subst hy
      exact ⟨_, by simp, hr⟩
    | succ n =>
      simp only [List.getElem?_cons_succ] at hy ⊢
      exact ih n hy

theorem SingleChunkLine.ne_nil {env : Env} {s : Slice} {line : Str}
    (h : SingleChunkLine env s line) : line.length ≠ 0 := by
  obtain ⟨⟨ws, hws, _, rfl⟩, _⟩ := h
  have := strings.Join_length_pos ws 32 (by omega)
  omega

theorem SingleChunkLine.no_newline {env : Env} {s : Slice} {line : Str}
    (h : SingleChunkLine env s line) : 10 ∉ line := by
  obtain ⟨⟨ws, _, hW, rfl⟩, _⟩ := h
  exact strings.not_mem_Join ws 32 10 (by decide) hW.newline_free

theorem assemble.linesLoop_unlines (env : Env) (shards : List Slice) (lines : List Str)
    (h : List.Forall₂ (SingleChunkLine env) shards lines) (i : Nat) (acc : List (List Nat)) :
    assemble.linesLoop env (strings.Split (unlines lines) 10) i acc =
      (lines.map Event.EntropyFromMnemonic, .ok (acc ++ shards.map Slice.bytes)) := by
  induction h generalizing i acc with
  | nil => simp [unlines, strings.Split, assemble.linesLoop]
  | cons hr _ ih =>
    rename_i s line rest lrest
    simp only [unlines]
    rw [strings.Split_append_sep _ _ _ hr.no_newline]
    simp only [assemble.linesLoop, if_neg hr.ne_nil, hr.2 i, ih]
    simp

theorem assemble.Run_three_lines (env : Env) (secretMnemonic : Str) (entropy : List Nat)
    (sa sb sc : Slice) (la lb lc : Str)
    (ha : SingleChunkLine env sa la) (hb : SingleChunkLine env sb lb)
    (hc : SingleChunkLine env sc lc)
    (henc : env.NewMnemonic entropy = (secretMnemonic, none))
    (hcomb : env.Combine [sa.bytes, sb.bytes, sc.bytes] = (entropy, none)) :
    (assemble.Run env (unlines [la, lb, lc], none)).failure = none ∧
      written (assemble.Run env (unlines [la, lb, lc], none)).trace = secretMnemonic ++ [10] := by
  have hF : List.Forall₂ (SingleChunkLine env) [sa, sb, sc] [la, lb, lc] :=
    List.Forall₂.cons ha (List.Forall₂.cons hb (List.Forall₂.cons hc List.Forall₂.nil))
  have hl := assemble.linesLoop_unlines env _ _ hF 0 []
  simp only [List.nil_append, List.map_cons, List.map_nil] at hl
  simp only [assemble.Run, hl, hcomb, henc, true_and]
  simp [written, Event.written]

/-! ## The toy libraries meet the assumptions -/

theorem strings.Join_cons (w : Str) (ws : List Str) (sep : Nat) (h : ws ≠ []) :
    strings.Join (w :: ws) sep = w ++ sep :: strings.Join ws sep := by
  cases ws with
  | nil => exact absurd rfl h
  | cons v vs => rfl

namespace toy

theorem unspell_spell (c : List Nat) : unspell (spell c) = c := by
  induction c with
  | nil => rfl
  | cons b bs ih =>
    simp only [spell, letters, List.cons_append, List.nil_append, unspell, ih]
    congr 1
    omega

theorem spell_append (a b : List Nat) : spell (a ++ b) = spell a ++ spell b := by
  induction a with
  | nil => rfl
  | cons x xs ih => simp [spell, ih]

theorem letters_ge (b x : Nat) (hx : x ∈ letters b) : 65 ≤ x := by
  simp only [letters, List.mem_cons, List.mem_singleton, List.not_mem_nil, or_false] at hx
  omega

theorem spell_ge (c : List Nat) (x : Nat) (hx : x ∈ spell c) : 65 ≤ x := by
  induction c with
  | nil => simp [spell] at hx
  | cons b bs ih =>
    simp only [spell, List.mem_append] at hx
    rcases hx with h | h
    · exact letters_ge b x h
    · exact ih h

theorem filter_spell (c : List Nat) :
    (spell c).filter (fun x => decide (x ≠ 32)) = spell c := by
  rw [List.filter_eq_self]
  intro x hx
  have := spell_ge c x hx
  simp
  omega

theorem filter_words (l r : List Nat) :
    (strings.Join (l.map letters ++ [spell r]) 32).filter (fun x => decide (x ≠ 32)) =
      spell (l ++ r) := by
  induction l with
  | nil => simpa [strings.Join] using filter_spell r
  | cons b bs ih =>
    rw [List.map_cons, List.cons_append, strings.Join_cons _ _ _ (by simp)]
    rw [List.filter_append, List.filter_cons_of_neg (by simp), ih]
    have hb : letters b = spell [b] := by simp [spell]
    rw [hb, filter_spell, ← spell_append]
    rfl

theorem words_length (c : List Nat) (h : c.length = 20) : (words c).length = 15 := by
  simp [words, h]

theorem words_AreWords (c : List Nat) (h : c.length = 20) : AreWords (words c) := by
  intro w hw
  simp only [words, h, List.mem_append, List.mem_map, List.mem_singleton] at hw
  rcases hw with ⟨b, _, rfl⟩ | rfl
  · refine ⟨by simp [letters], ?_, ?_⟩ <;> intro hx <;> have := letters_ge _ _ hx <;> omega
  · refine ⟨?_, ?_, ?_⟩
    · intro he
      have hl : (c.drop 14).length = 6 := by simp [h]
      match hd : c.drop 14, hl with
      | b :: bs, _ =>
        simp only [Nat.reduceMul, Nat.reduceDiv, Nat.add_one_sub_one] at he
        rw [hd] at he
        simp [spell, letters] at he
    · intro hx; have := spell_ge _ _ hx; omega
    · intro hx; have := spell_ge _ _ hx; omega

theorem NewMnemonic_chunk (c : List Nat) (h : c.length = 20) :
    NewMnemonic c = (strings.Join (words c) 32, none) := by
  simp [NewMnemonic, h]

theorem EntropyFromMnemonic_chunk (c : List Nat) (h : c.length = 20) (hb : IsBytes c) :
    EntropyFromMnemonic (strings.Join (words c) 32) = (Slice.ofList c, none) := by
  have hsp : unspell ((strings.Join (words c) 32).filter (fun x => decide (x ≠ 32))) = c := by
    simp only [words]
    rw [filter_words, List.take_append_drop, unspell_spell]
  unfold EntropyFromMnemonic
  simp only [hsp]
  rw [if_pos ⟨NewMnemonic_chunk c h, hb⟩]

theorem chunkCodec : ChunkCodec env := by
  intro c h hb
  refine ⟨words c, words_length c h, words_AreWords c h, NewMnemonic_chunk c h, ?_, ?_, ?_⟩
  · show (EntropyFromMnemonic _).2 = none
    rw [EntropyFromMnemonic_chunk c h hb]
  · show (EntropyFromMnemonic _).1.WF
    rw [EntropyFromMnemonic_chunk c h hb]
    simp [Slice.WF, Slice.ofList]
  · show (EntropyFromMnemonic _).1.bytes = c
    rw [EntropyFromMnemonic_chunk c h hb]
    simp [Slice.bytes, Slice.ofList]

end toy

/-! ## The format and the number of the chunks -/

theorem IsBytes_take {l : List Nat} (h : IsBytes l) (n : Nat) : IsBytes (l.take n) :=
  fun x hx => h x (List.mem_of_mem_take hx)

theorem IsBytes_drop {l : List Nat} (h : IsBytes l) (n : Nat) : IsBytes (l.drop n) :=
  fun x hx => h x (List.mem_of_mem_drop hx)

theorem Slice.IsBytes_bytes (s : Slice) (h : IsBytes s.arr) : IsBytes s.bytes :=
  IsBytes_take (IsBytes_drop h _) _

theorem IsBytes_padding (n : Nat) : IsBytes (List.replicate (19 - n) 0 ++ [n % 256]) := by
  refine IsBytes_append ?_ ?_
  · intro x hx
    rw [List.eq_of_mem_replicate hx]
    omega
  · intro x hx
    simp only [List.mem_singleton] at hx
    omega

theorem goAppend_arr_IsBytes (s : Slice) (xs : List Nat) (hs : IsBytes s.arr) (hx : IsBytes xs) :
    IsBytes (goAppend s xs).arr := by
  unfold goAppend
  split
  · exact IsBytes_append (IsBytes_append (IsBytes_take hs _) hx) (IsBytes_drop hs _)
  · exact IsBytes_append (s.IsBytes_bytes hs) hx

theorem split.frame_snd_IsBytes (shard : Slice) (j : Nat) (h : IsBytes shard.arr) :
    IsBytes (split.frame shard j).2.arr := by
  unfold split.frame
  simp only
  split_ifs
  · exact goAppend_arr_IsBytes _ _ h (IsBytes_padding _)
  · exact h
  · exact goAppend_arr_IsBytes _ _ h (IsBytes_padding _)
  · exact h

theorem split.frame_fst_IsBytes (shard : Slice) (j : Nat) (h : IsBytes shard.arr) :
    IsBytes (split.frame shard j).1.bytes := by
  apply Slice.IsBytes_bytes
  unfold split.frame
  simp only
  split_ifs
  · exact goAppend_arr_IsBytes _ _ h (IsBytes_padding _)
  · exact goAppend_arr_IsBytes _ _ h (IsBytes_padding _)

theorem split.frameLoop_IsBytes (fuel : Nat) (shard : Slice) (j : Nat) (h : IsBytes shard.arr) :
    ∀ c ∈ (split.frameLoop fuel shard j).1, IsBytes c := by
  induction fuel generalizing shard j with
  | zero => simp [split.frameLoop]
  | succ n ih =>
    by_cases hj : j < shard.len
    · rw [split.frameLoop_succ _ _ _ hj]
      intro c hc
      rcases List.mem_cons.1 hc with rfl | hc
      · exact split.frame_fst_IsBytes _ _ h
      · exact ih _ _ (split.frame_snd_IsBytes _ _ h) c hc
    · rw [split.frameLoop_done _ _ _ hj]
      simp

theorem Framed_of_eq (p : List Nat) (hp : p.length ≤ 19) :
    Framed (p ++ List.replicate (19 - p.length) 0 ++ [p.length]) p.length := by
  refine ⟨by simp; omega, hp, ?_, ?_⟩
  · rw [List.getElem?_append_right (by simp; omega)]
    have : 19 - (p ++ List.replicate (19 - p.length) 0).length = 0 := by simp; omega
    rw [this]
    rfl
  · intro k hk hk19
    rw [List.append_assoc, List.getElem?_append_right hk,
      List.getElem?_append_left (by simp; omega)]
    rw [List.getElem?_replicate]
    simp
    omega

theorem split.chunks_framed (shard : Slice) (hWF : shard.WF) (i : Nat) (c : List Nat)
    (hc : (split.chunks shard)[i]? = some c) :
    19 * i < shard.len ∧ Framed c (min 19 (shard.len - 19 * i)) := by
  obtain ⟨hi, p, hp, rfl⟩ := split.frameLoop_getElem? _ _ _ hWF i c hc
  rw [Nat.zero_add] at hi hp
  refine ⟨hi, ?_⟩
  rw [← hp]
  exact Framed_of_eq p (by omega)

theorem split.chunks_length (shard : Slice) :
    (split.chunks shard).length = (shard.len + 18) / 19 := by
  unfold split.chunks
  rw [split.frameLoop_length _ _ _ (by omega)]
  rfl

theorem split.mem_chunks (shard : Slice) (hWF : shard.WF) (hB : IsBytes shard.arr) :
    ∀ c ∈ split.chunks shard, c.length = 20 ∧ IsBytes c := by
  intro c hc
  obtain ⟨i, hi⟩ := List.getElem?_of_mem hc
  exact ⟨(split.chunks_framed shard hWF i c hi).2.1, split.frameLoop_IsBytes _ _ _ hB c hc⟩

theorem split.encodeShard_trace_initial (env : Env) (shard : Slice) :
    (split.encodeShard env shard).1 <+: (split.chunks shard).map Event.NewMnemonic := by
  have := split.encodeLoop_trace_initial env shard.len shard 0 []
  unfold split.encodeShard split.chunks
  rcases h : split.encodeLoop env shard.len shard 0 [] with ⟨t, _ | _⟩ <;> rw [h] at this <;>
    exact this

theorem split.encodeShard_ok (env : Env) (shard : Slice)
    (hacc : ∀ c ∈ split.chunks shard, (env.NewMnemonic c).2 = none) :
    split.encodeShard env shard =
      ((split.chunks shard).map Event.NewMnemonic,
        .ok (strings.Join ((split.chunks shard).map (fun c => (env.NewMnemonic c).1)) 32)) := by
  unfold split.encodeShard
  rw [split.encodeLoop_ok env shard.len shard 0 [] hacc]
  rfl

theorem strings.Join_append (a b : List Str) (sep : Nat) (ha : a ≠ []) (hb : b ≠ []) :
    strings.Join (a ++ b) sep = strings.Join a sep ++ sep :: strings.Join b sep := by
  induction a with
  | nil => exact absurd rfl ha
  | cons w ws ih =>
    cases ws with
    | nil => simp [strings.Join_cons _ _ _ hb, strings.Join]
    | cons v vs =>
      have e1 : strings.Join (w :: v :: vs ++ b) sep =
          w ++ sep :: strings.Join (v :: vs ++ b) sep := rfl
      have e2 : strings.Join (w :: v :: vs) sep = w ++ sep :: strings.Join (v :: vs) sep := rfl
      rw [e1, e2, ih (by simp)]
      simp

theorem AreWords_append {a b : List Str} (ha : AreWords a) (hb : AreWords b) :
    AreWords (a ++ b) := by
  intro w hw
  rcases List.mem_append.1 hw with h | h
  · exact ha w h
  · exact hb w h

theorem words_of_chunks (env : Env) (henc : EncodesChunks env) (cs : List (List Nat))
    (hcs : ∀ c ∈ cs, c.length = 20 ∧ IsBytes c) :
    (∀ c ∈ cs, (env.NewMnemonic c).2 = none) ∧
    ∃ ws : List Str, ws.length = 15 * cs.length ∧ AreWords ws ∧
      strings.Join (cs.map (fun c => (env.NewMnemonic c).1)) 32 = strings.Join ws 32 := by
  induction cs with
  | nil => exact ⟨by simp, [], rfl, by simp [AreWords], rfl⟩
  | cons c rest ih =>
    obtain ⟨hacc, ws, hws, hW, hJ⟩ := ih (fun x hx => hcs x (List.mem_cons_of_mem _ hx))
    obtain ⟨hc20, hcB⟩ := hcs c (List.mem_cons_self _ _)
    obtain ⟨wc, hwc, hWc, hm⟩ := henc c hc20 hcB
    refine ⟨?_, wc ++ ws, by simp [hwc, hws]; ring, AreWords_append hWc hW, ?_⟩
    · intro x hx
      rcases List.mem_cons.1 hx with rfl | hx
      · rw [hm]
      · exact hacc x hx
    · cases rest with
      | nil =>
        have : ws = [] := List.eq_nil_of_length_eq_zero (by simpa using hws)
        simp [strings.Join, hm, this]
      | cons d ds =>
        have hne : ws ≠ [] := by
          intro h
          rw [h] at hws
          simp at hws
        rw [List.map_cons, strings.Join_cons _ _ _ (by simp), hJ, hm,
          strings.Join_append _ _ _ (by intro h; rw [h] at hwc; simp at hwc) hne]

theorem written_map_NewMnemonic (cs : List (List Nat)) :
    written (cs.map Event.NewMnemonic) = [] := by
  induction cs with
  | nil => rfl
  | cons c cs ih => simp [written, Event.written, ih]

theorem split.printLoop_cons_ok (env : Env) (shard : Slice) (rest : List Slice) (t : List Event)
    (line : Str) (h : split.encodeShard env shard = (t, .ok line)) :
    split.printLoop env (shard :: rest) =
      (t ++ Event.stdout (line ++ [10]) :: (split.printLoop env rest).1,
        (split.printLoop env rest).2) := by
  simp only [split.printLoop, h]

theorem split.printLoop_cons_err (env : Env) (shard : Slice) (rest : List Slice) (t : List Event)
    (f : Failure) (h : split.encodeShard env shard = (t, .error f)) :
    split.printLoop env (shard :: rest) = (t, some f) := by
  simp only [split.printLoop, h]

theorem split.printLoop_calls (env : Env) (shards : List Slice) (chunk : List Nat)
    (h : Event.NewMnemonic chunk ∈ (split.printLoop env shards).1) :
    ∃ s ∈ shards, chunk ∈ split.chunks s := by
  induction shards with
  | nil => simp [split.printLoop] at h
  | cons s rest ih =>
    have hpre := split.encodeShard_trace_initial env s
    have hin : ∀ t, t = (split.encodeShard env s).1 → Event.NewMnemonic chunk ∈ t →
        chunk ∈ split.chunks s := by
      intro t ht hmem
      rw [ht] at hmem
      have := hpre.subset hmem
      simpa using this
    rcases he : split.encodeShard env s with ⟨t, f | line⟩
    · rw [split.printLoop_cons_err _ _ _ _ _ he] at h
      exact ⟨s, List.mem_cons_self _ _, hin t (by rw [he]) h⟩
    · rw [split.printLoop_cons_ok _ _ _ _ _ he] at h
      simp only [List.mem_append, List.mem_cons] at h
      rcases h with h | h | h
      · exact ⟨s, List.mem_cons_self _ _, hin t (by rw [he]) h⟩
      · cases h
      · obtain ⟨x, hx, hc⟩ := ih h
        exact ⟨x, List.mem_cons_of_mem _ hx, hc⟩

theorem split.printLoop_ok (env : Env) (shards : List Slice)
    (hacc : ∀ s ∈ shards, ∀ c ∈ split.chunks s, (env.NewMnemonic c).2 = none) :
    (split.printLoop env shards).2 = none := by
  induction shards with
  | nil => rfl
  | cons s rest ih =>
    rw [split.printLoop_cons_ok _ _ _ _ _
      (split.encodeShard_ok env s (hacc s (List.mem_cons_self _ _)))]
    exact ih (fun x hx => hacc x (List.mem_cons_of_mem _ hx))

/-! ## Lines that `assemble` rejects -/

theorem OnlyDecodes_nil : OnlyDecodes [] := by
  intro e he
  cases he

theorem OnlyDecodes_cons (m : Str) {t : List Event} (h : OnlyDecodes t) :
    OnlyDecodes (Event.EntropyFromMnemonic m :: t) := by
  intro e he
  rcases List.mem_cons.1 he with rfl | he
  · exact ⟨m, rfl⟩
  · exact h e he

theorem OnlyDecodes_append {a b : List Event} (ha : OnlyDecodes a) (hb : OnlyDecodes b) :
    OnlyDecodes (a ++ b) := by
  intro e he
  rcases List.mem_append.1 he with h | h
  · exact ha e h
  · exact hb e h

theorem OnlyDecodes.written {t : List Event} (h : OnlyDecodes t) : written t = [] := by
  induction t with
  | nil => rfl
  | cons e es ih =>
    obtain ⟨m, rfl⟩ := h e (List.mem_cons_self _ _)
    simp only [ShardSecretPhrase.written, Event.written, List.nil_append]
    exact ih (fun x hx => h x (List.mem_cons_of_mem _ hx))

theorem assemble.decodeLoop_cases (env : Env) (i : Nat) (ws : List Str) (fuel j : Nat)
    (shard : List Nat) (hj : j < ws.length) (hb : ¬ j + 15 > ws.length) :
    (∃ f, assemble.decodeLoop env i ws (fuel + 1) j shard =
        ([.EntropyFromMnemonic (strings.Join ((ws.drop j).take 15) 32)], .error f)) ∨
    (∃ bytes, assemble.decodeLoop env i ws (fuel + 1) j shard =
        (Event.EntropyFromMnemonic (strings.Join ((ws.drop j).take 15) 32) ::
            (assemble.decodeLoop env i ws fuel (j + 15) (shard ++ bytes)).1,
          (assemble.decodeLoop env i ws fuel (j + 15) (shard ++ bytes)).2)) := by
  rcases hd : env.EntropyFromMnemonic (strings.Join ((ws.drop j).take 15) 32) with
    ⟨chunk, _ | err⟩
  · rcases hp : assemble.payload chunk with f | bytes
    · exact Or.inl ⟨f, assemble.decodeLoop_panic env i ws fuel j shard hj hb chunk hd f hp⟩
    · exact Or.inr ⟨bytes, assemble.decodeLoop_step env i ws fuel j shard hj hb chunk hd bytes hp⟩
  · exact Or.inl ⟨_, assemble.decodeLoop_reject env i ws fuel j shard hj hb chunk err hd⟩

theorem assemble.decodeLoop_OnlyDecodes (env : Env) (i : Nat) (ws : List Str) (fuel j : Nat)
    (shard : List Nat) : OnlyDecodes (assemble.decodeLoop env i ws fuel j shard).1 := by
  induction fuel generalizing j shard with
  | zero => exact OnlyDecodes_nil
  | succ n ih =>
    by_cases hj : j < ws.length
    · by_cases hb : j + 15 > ws.length
      · rw [assemble.decodeLoop_bounds _ _ _ _ _ _ hj hb]
        exact OnlyDecodes_nil
      · rcases assemble.decodeLoop_cases env i ws n j shard hj hb with ⟨f, h⟩ | ⟨bytes, h⟩
        · rw [h]
          exact OnlyDecodes_cons _ OnlyDecodes_nil
        · rw [h]
          exact OnlyDecodes_cons _ (ih _ _)
    · rw [assemble.decodeLoop_done _ _ _ _ _ _ hj]
      exact OnlyDecodes_nil

theorem assemble.linesLoop_OnlyDecodes (env : Env) (lines : List Str) (i : Nat)
    (acc : List (List Nat)) : OnlyDecodes (assemble.linesLoop env lines i acc).1 := by
  induction lines generalizing i acc with
  | nil => exact OnlyDecodes_nil
  | cons l rest ih =>
    simp only [assemble.linesLoop]
    split
    · exact OnlyDecodes_nil
    · have hd : OnlyDecodes (assemble.decodeLine env i l).1 :=
        assemble.decodeLoop_OnlyDecodes _ _ _ _ _ _
      rcases he : assemble.decodeLine env i l with ⟨t, f | shard⟩
      · rw [he] at hd
        exact hd
      · rw [he] at hd
        exact OnlyDecodes_append hd (ih _ _)

theorem assemble.decodeLoop_malformed (env : Env) (i : Nat) (ws : List Str)
    (hcount : ws.length % 15 ≠ 0) (fuel j : Nat) (shard : List Nat) (hj15 : j % 15 = 0)
    (hjle : j ≤ ws.length) (hfuel : ws.length - j ≤ fuel) :
    ∃ f, (assemble.decodeLoop env i ws fuel j shard).2 = .error f := by
  induction fuel generalizing j shard with
  | zero =>
    have : j = ws.length := by omega
    omega
  | succ n ih =>
    have hj : j < ws.length := by
      rcases Nat.lt_or_ge j ws.length with h | h
      · exact h
      · have : j = ws.length := by omega
        omega
    by_cases hb : j + 15 > ws.length
    · rw [assemble.decodeLoop_bounds _ _ _ _ _ _ hj hb]
      exact ⟨_, rfl⟩
    · rcases assemble.decodeLoop_cases env i ws n j shard hj hb with ⟨f, h⟩ | ⟨bytes, h⟩
      · rw [h]
        exact ⟨f, rfl⟩
      · rw [h]
        exact ih (j + 15) _ (by omega) (by omega) (by omega)

theorem assemble.linesLoop_malformed (env : Env) (pre post : List Str) (mnemonic : Str)
    (hpre : ∀ l ∈ pre, l ≠ []) (hne : mnemonic ≠ [])
    (hbad : ∀ i, ∃ f, (assemble.decodeLine env i mnemonic).2 = .error f) (i : Nat)
    (acc : List (List Nat)) :
    ∃ f, (assemble.linesLoop env (pre ++ mnemonic :: post) i acc).2 = .error f := by
  induction pre generalizing i acc with
  | nil =>
    obtain ⟨f, hf⟩ := hbad i
    have hlen : ¬ mnemonic.length = 0 := fun h => hne (List.eq_nil_of_length_eq_zero h)
    simp only [List.nil_append, assemble.linesLoop, if_neg hlen]
    rcases he : assemble.decodeLine env i mnemonic with ⟨t, g | shard⟩
    · exact ⟨g, rfl⟩
    · rw [he] at hf
      cases hf
  | cons l rest ih =>
    have hlen : ¬ l.length = 0 :=
      fun h => hpre l (List.mem_cons_self _ _) (List.eq_nil_of_length_eq_zero h)
    simp only [List.cons_append, assemble.linesLoop, if_neg hlen]
    rcases he : assemble.decodeLine env i l with ⟨t, g | shard⟩
    · exact ⟨g, rfl⟩
    · exact ih (fun x hx => hpre x (List.mem_cons_of_mem _ hx)) _ _

theorem assemble.Run_of_linesLoop_error (env : Env) (input : Str) (f : Failure)
    (h : (assemble.linesLoop env (strings.Split input 10) 0 []).2 = .error f) :
    assemble.Run env (input, none) =
      ⟨(assemble.linesLoop env (strings.Split input 10) 0 []).1, some f⟩ := by
  rcases he : assemble.linesLoop env (strings.Split input 10) 0 [] with ⟨t, g | shards⟩
  · rw [he] at h
    cases h
    simp only [assemble.Run, he]
  · rw [he] at h
    cases h

theorem assemble.linesLoop_cons_ok (env : Env) (l : Str) (rest : List Str) (i : Nat)
    (acc : List (List Nat)) (hl : l ≠ []) (t : List Event) (shard : List Nat)
    (h : assemble.decodeLine env i l = (t, .ok shard)) :
    assemble.linesLoop env (l :: rest) i acc =
      (t ++ (assemble.linesLoop env rest (i + 1) (acc ++ [shard])).1,
        (assemble.linesLoop env rest (i + 1) (acc ++ [shard])).2) := by
  have hlen : ¬ l.length = 0 := fun h0 => hl (List.eq_nil_of_length_eq_zero h0)
  simp only [assemble.linesLoop, if_neg hlen, h]

theorem assemble.linesLoop_cons_err (env : Env) (l : Str) (rest : List Str) (i : Nat)
    (acc : List (List Nat)) (hl : l ≠ []) (t : List Event) (f : Failure)
    (h : assemble.decodeLine env i l = (t, .error f)) :
    assemble.linesLoop env (l :: rest) i acc = (t, .error f) := by
  have hlen : ¬ l.length = 0 := fun h0 => hl (List.eq_nil_of_length_eq_zero h0)
  simp only [assemble.linesLoop, if_neg hlen, h]

theorem assemble.linesLoop_first_error (env : Env) (pre post : List Str) (mnemonic : Str)
    (hpre : ∀ l ∈ pre, l ≠ []) (hne : mnemonic ≠ []) (i : Nat) (acc : List (List Nat))
    (f : Failure)
    (hok : ∀ (k : Nat) (l : Str), pre[k]? = some l →
      ∃ s, (assemble.decodeLine env (i + k) l).2 = .ok s)
    (hbad : (assemble.decodeLine env (i + pre.length) mnemonic).2 = .error f) :
    (assemble.linesLoop env (pre ++ mnemonic :: post) i acc).2 = .error f := by
  induction pre generalizing i acc with
  | nil =>
    rw [List.length_nil, Nat.add_zero] at hbad
    rcases he : assemble.decodeLine env i mnemonic with ⟨t, g | shard⟩
    · rw [he] at hbad
      rw [List.nil_append, assemble.linesLoop_cons_err _ _ _ _ _ hne _ _ he]
      simp only [Except.error.injEq] at hbad
      rw [hbad]
    · rw [he] at hbad
      cases hbad
  | cons l rest ih =>
    have hl := hpre l (List.mem_cons_self _ _)
    have hrest : ∀ x ∈ rest, x ≠ [] := fun x hx => hpre x (List.mem_cons_of_mem _ hx)
    obtain ⟨s, hs⟩ := hok 0 l (by simp)
    rw [Nat.add_zero] at hs
    rcases he : assemble.decodeLine env i l with ⟨t, g | shard⟩
    · rw [he] at hs
      cases hs
    · rw [List.cons_append, assemble.linesLoop_cons_ok _ _ _ _ _ hl _ _ he]
      apply ih hrest
      · intro k x hk
        have := hok (k + 1) x (by simpa using hk)
        have e : i + (k + 1) = i + 1 + k := by omega
        rwa [e] at this
      · have e : i + (l :: rest).length = i + 1 + rest.length := by
          rw [List.length_cons]; omega
        rwa [e] at hbad

/-! ## A line whose last word group is incomplete -/

theorem assemble.decodeLoop_incomplete (env : Env) (i : Nat) (ws : List Str)
    (hcount : ws.length % 15 ≠ 0)
    (hok : ∀ h, h < ws.length / 15 → assemble.GroupDecodes env ws h)
    (fuel h : Nat) (shard : List Nat) (hh : h ≤ ws.length / 15)
    (hfuel : ws.length - 15 * h ≤ fuel) :
    assemble.decodeLoop env i ws fuel (15 * h) shard =
      ((List.range' h (ws.length / 15 - h)).map
          (fun g => Event.EntropyFromMnemonic (assemble.group ws g)),
        .error .panicSliceBounds) := by
  induction fuel generalizing h shard with
  | zero => omega
  | succ n ih =>
    have hj : 15 * h < ws.length := by omega
    by_cases hlast : h = ws.length / 15
    · rw [assemble.decodeLoop_bounds env i ws n _ shard hj (by omega), hlast, Nat.sub_self]
      rfl
    · have hb : ¬ 15 * h + 15 > ws.length := by omega
      obtain ⟨c, bytes, hd, hp⟩ := hok h (by omega)
      rw [assemble.decodeLoop_step env i ws n _ shard hj hb c hd bytes hp]
      have e : 15 * h + 15 = 15 * (h + 1) := by ring
      rw [e, ih (h + 1) _ (by omega) (by omega)]
      obtain ⟨m, hm⟩ : ∃ m, ws.length / 15 - h = m + 1 := ⟨ws.length / 15 - h - 1, by omega⟩
      have hm' : ws.length / 15 - (h + 1) = m := by omega
      rw [hm, hm', List.range'_succ, List.map_cons]
      rfl

theorem assemble.decodeLoop_first_failure (env : Env) (i : Nat) (ws : List Str) (g : Nat)
    (hg : 15 * g + 15 ≤ ws.length) (f : Failure)
    (hfail : ∀ (n : Nat) (shard : List Nat),
      assemble.decodeLoop env i ws (n + 1) (15 * g) shard =
        ([Event.EntropyFromMnemonic (assemble.group ws g)], .error f))
    (hok : ∀ h, h < g → assemble.GroupDecodes env ws h)
    (fuel h : Nat) (shard : List Nat) (hhg : h ≤ g) (hfuel : ws.length - 15 * h ≤ fuel) :
    assemble.decodeLoop env i ws fuel (15 * h) shard =
      ((List.range' h (g + 1 - h)).map
          (fun k => Event.EntropyFromMnemonic (assemble.group ws k)),
        .error f) := by
  induction fuel generalizing h shard with
  | zero => omega
  | succ n ih =>
    by_cases hlast : h = g
    · subst hlast
      rw [hfail n shard, Nat.add_sub_cancel_left]
      rfl
    · have hj : 15 * h < ws.length := by omega
      have hb : ¬ 15 * h + 15 > ws.length := by omega
      obtain ⟨c, bytes, hd, hp⟩ := hok h (by omega)
      rw [assemble.decodeLoop_step env i ws n _ shard hj hb c hd bytes hp]
      have e : 15 * h + 15 = 15 * (h + 1) := by ring
      rw [e, ih (h + 1) _ (by omega) (by omega)]
      obtain ⟨m, hm⟩ : ∃ m, g + 1 - h = m + 1 := ⟨g - h, by omega⟩
      have hm' : g + 1 - (h + 1) = m := by omega
      rw [hm, hm', List.range'_succ, List.map_cons]
      rfl

theorem assemble.decodeLine_incomplete (env : Env) (i : Nat) (mnemonic : Str)
    (hcount : (strings.Split mnemonic 32).length % 15 ≠ 0)
    (hok : ∀ h, h < (strings.Split mnemonic 32).length / 15 →
      assemble.GroupDecodes env (strings.Split mnemonic 32) h) :
    assemble.decodeLine env i mnemonic =
      ((List.range ((strings.Split mnemonic 32).length / 15)).map
          (fun g => Event.EntropyFromMnemonic (assemble.group (strings.Split mnemonic 32) g)),
        .error .panicSliceBounds) := by
  have h := assemble.decodeLoop_incomplete env i _ hcount hok
    (strings.Split mnemonic 32).length 0 [] (Nat.zero_le _) (by omega)
  rw [Nat.mul_zero, Nat.sub_zero, ← List.range_eq_range'] at h
  exact h

theorem assemble.decodeLine_first_failure (env : Env) (i : Nat) (mnemonic : Str) (g : Nat)
    (hg : g < (strings.Split mnemonic 32).length / 15)
    (hok : ∀ h, h < g → assemble.GroupDecodes env (strings.Split mnemonic 32) h)
    (chunk : Slice) :
    (∀ err, env.EntropyFromMnemonic (assemble.group (strings.Split mnemonic 32) g) =
        (chunk, some err) →
      assemble.decodeLine env i mnemonic =
        ((List.range (g + 1)).map
            (fun k => Event.EntropyFromMnemonic (assemble.group (strings.Split mnemonic 32) k)),
          .error (.fatalChunk (15 * g) i err))) ∧
    (∀ f, env.EntropyFromMnemonic (assemble.group (strings.Split mnemonic 32) g) =
        (chunk, none) → assemble.payload chunk = .error f →
      assemble.decodeLine env i mnemonic =
        ((List.range (g + 1)).map
            (fun k => Event.EntropyFromMnemonic (assemble.group (strings.Split mnemonic 32) k)),
          .error f)) := by
  have hlen : 15 * g + 15 ≤ (strings.Split mnemonic 32).length := by
    have := Nat.div_mul_le_self (strings.Split mnemonic 32).length 15
    have : (g + 1) * 15 ≤ (strings.Split mnemonic 32).length / 15 * 15 :=
      Nat.mul_le_mul_right 15 hg
    omega
  have key : ∀ f, (∀ (n : Nat) (shard : List Nat),
      assemble.decodeLoop env i (strings.Split mnemonic 32) (n + 1) (15 * g) shard =
        ([Event.EntropyFromMnemonic (assemble.group (strings.Split mnemonic 32) g)],
          .error f)) →
      assemble.decodeLine env i mnemonic =
        ((List.range (g + 1)).map
            (fun k => Event.EntropyFromMnemonic (assemble.group (strings.Split mnemonic 32) k)),
          .error f) := by
    intro f hfail
    have h := assemble.decodeLoop_first_failure env i _ g hlen f hfail hok
      (strings.Split mnemonic 32).length 0 [] (Nat.zero_le _) (by omega)
    rw [Nat.mul_zero, Nat.sub_zero, ← List.range_eq_range'] at h
    exact h
  refine ⟨fun err hd => key _ fun n shard => ?_, fun f hd hp => key _ fun n shard => ?_⟩
  · exact assemble.decodeLoop_reject env i _ n _ shard (by omega) (by omega) chunk err hd
  · exact assemble.decodeLoop_panic env i _ n _ shard (by omega) (by omega) chunk hd f hp


/-! ## The fuel of the loops is enough -/

theorem split.encodeLoop_fuel (env : Env) (f1 f2 : Nat) (shard : Slice) (j : Nat) (acc : List Str)
    (h1 : shard.len - j ≤ f1) (h2 : shard.len - j ≤ f2) :
    split.encodeLoop env f1 shard j acc = split.encodeLoop env f2 shard j acc := by
  induction f1 generalizing f2 shard j acc with
  | zero =>
    rw [split.encodeLoop_done _ _ _ _ _ (by omega), split.encodeLoop_done _ _ _ _ _ (by omega)]
  | succ n ih =>
    by_cases hj : j < shard.len
    · obtain ⟨m, rfl⟩ : ∃ m, f2 = m + 1 := ⟨f2 - 1, by omega⟩
      rcases h : env.NewMnemonic (split.frame shard j).1.bytes with ⟨w, _ | err⟩
      · rw [split.encodeLoop_succ_ok _ _ _ _ _ hj _ h, split.encodeLoop_succ_ok _ _ _ _ _ hj _ h]
        rw [ih m _ _ _ (by rw [split.frame_snd_len]; omega) (by rw [split.frame_snd_len]; omega)]
      · rw [split.encodeLoop_succ_err _ _ _ _ _ hj _ _ h,
          split.encodeLoop_succ_err _ _ _ _ _ hj _ _ h]
    · rw [split.encodeLoop_done _ _ _ _ _ hj, split.encodeLoop_done _ _ _ _ _ hj]

theorem assemble.decodeLoop_fuel (env : Env) (i : Nat) (ws : List Str) (f1 f2 j : Nat)
    (shard : List Nat) (h1 : ws.length - j ≤ f1) (h2 : ws.length - j ≤ f2) :
    assemble.decodeLoop env i ws f1 j shard = assemble.decodeLoop env i ws f2 j shard := by
  induction f1 generalizing f2 j shard with
  | zero =>
    rw [assemble.decodeLoop_done _ _ _ _ _ _ (by omega),
      assemble.decodeLoop_done _ _ _ _ _ _ (by omega)]
  | succ n ih =>
    by_cases hj : j < ws.length
    · obtain ⟨m, rfl⟩ : ∃ m, f2 = m + 1 := ⟨f2 - 1, by omega⟩
      by_cases hb : j + 15 > ws.length
      · rw [assemble.decodeLoop_bounds _ _ _ _ _ _ hj hb,
          assemble.decodeLoop_bounds _ _ _ _ _ _ hj hb]
      · rcases hd : env.EntropyFromMnemonic (strings.Join ((ws.drop j).take 15) 32) with
          ⟨chunk, _ | err⟩
        · rcases hp : assemble.payload chunk with f | bytes
          · rw [assemble.decodeLoop_panic env i ws n j shard hj hb chunk hd f hp,
              assemble.decodeLoop_panic env i ws m j shard hj hb chunk hd f hp]
          · rw [assemble.decodeLoop_step env i ws n j shard hj hb chunk hd bytes hp,
              assemble.decodeLoop_step env i ws m j shard hj hb chunk hd bytes hp]
            rw [ih m _ _ (by omega) (by omega)]
        · rw [assemble.decodeLoop_reject env i ws n j shard hj hb chunk err hd,
            assemble.decodeLoop_reject env i ws m j shard hj hb chunk err hd]
    · rw [assemble.decodeLoop_done _ _ _ _ _ _ hj, assemble.decodeLoop_done _ _ _ _ _ _ hj]

/-! ## What a pass of the chunk loop does to the shard -/

theorem Slice.ofList_bytes (l : List Nat) : (Slice.ofList l).bytes = l := by
  simp [Slice.bytes, Slice.ofList]

theorem Slice.ofList_WF (l : List Nat) : (Slice.ofList l).WF := by
  simp [Slice.WF, Slice.ofList]

theorem split.chunks_short (s : Slice) (hWF : s.WF) (h1 : 1 ≤ s.len) (h19 : s.len ≤ 19) :
    split.chunks s = [s.bytes ++ List.replicate (19 - s.len) 0 ++ [s.len]] := by
  unfold split.chunks
  obtain ⟨n, hn⟩ : ∃ n, s.len = n + 1 := ⟨s.len - 1, by omega⟩
  have h := split.frameLoop_succ n s 0 (by omega)
  have hd := split.frameLoop_done n (split.frame s 0).2 (0 + 19)
    (by rw [split.frame_snd_len]; omega)
  rw [hd, split.frame_zero_bytes s hWF h1 h19] at h
  have e : split.frameLoop s.len s 0 = split.frameLoop (n + 1) s 0 := by rw [hn]
  rw [e, h]

theorem chunk_round_trip_short (s : Slice) (hWF : s.WF) (h19 : s.len ≤ 19) :
    assemble.decodeChunks (split.chunks s) = .ok s.bytes := by
  have hl := s.bytes_length hWF
  by_cases h0 : s.len = 0
  · have hb : s.bytes = [] := List.eq_nil_of_length_eq_zero (by omega)
    unfold split.chunks
    rw [split.frameLoop_done _ _ _ (by omega), hb]
    rfl
  · rw [split.chunks_short s hWF (by omega) h19]
    have hp : assemble.payload
        (Slice.ofList (s.bytes ++ List.replicate (19 - s.len) 0 ++ [s.len])) = .ok s.bytes := by
      apply assemble.payload_framed _ (Slice.ofList_WF _) s.bytes (by omega)
      rw [Slice.ofList_bytes, hl]
    simp only [assemble.decodeChunks, hp, List.append_nil]

theorem split.frame_overwrites (shard : Slice) (j : Nat) (hWF : shard.WF)
    (hj : j + 19 < shard.len) :
    (split.frame shard j).2.bytes = shard.bytes.set (j + 19) 19 := by
  have hl := shard.bytes_length hWF
  unfold Slice.WF at hWF
  unfold split.frame
  simp only [if_neg (show ¬ j + 19 > shard.len by omega)]
  have hfit : (shard.slice j (j + 19)).len + (List.replicate (19 - (shard.slice j (j + 19)).len) 0
      ++ [(shard.slice j (j + 19)).len % 256]).length ≤ (shard.slice j (j + 19)).cap := by
    simp only [Slice.slice, Slice.cap, Nat.add_sub_cancel_left, Nat.sub_self, List.replicate_zero,
      List.nil_append, List.length_singleton]
    omega
  rw [if_pos hfit]
  unfold goAppend
  rw [if_pos hfit]
  simp only [Slice.slice, Slice.bytes, Nat.add_sub_cancel_left, Nat.sub_self, List.replicate_zero,
    List.nil_append, List.length_singleton]
  apply List.ext_getElem?
  intro k
  by_cases hk : k < shard.len
  · rw [List.getElem?_take_of_lt hk, List.getElem?_drop, List.getElem?_set]
    by_cases hk19 : k = j + 19
    · subst hk19
      rw [if_pos rfl]
      rw [List.append_assoc, List.getElem?_append_right (by simp; omega)]
      have e : shard.off + (j + 19) - (List.take (shard.off + j + 19) shard.arr).length = 0 := by
        simp
        omega
      have hlen : (List.take shard.len (List.drop shard.off shard.arr)).length = shard.len := hl
      rw [e, hlen, if_pos hk]
      simp
    · rw [if_neg (fun h => hk19 h.symm)]
      rw [List.getElem?_take_of_lt hk, List.getElem?_drop]
      by_cases hlt : k < j + 19
      · rw [List.append_assoc, List.getElem?_append_left (by simp; omega)]
        rw [List.getElem?_take_of_lt (by omega)]
      · rw [List.getElem?_append_right (by simp; omega)]
        have e : shard.off + k - (List.take (shard.off + j + 19) shard.arr ++ [19 % 256]).length
            = k - (j + 20) := by
          simp
          omega
        rw [e, List.getElem?_drop]
        congr 1
        omega
  · rw [List.getElem?_eq_none (by simp; omega), List.getElem?_eq_none (by simp; omega)]

theorem goAppend_arr_take (s : Slice) (xs : List Nat) (hWF : s.WF)
    (h : s.len + xs.length ≤ s.cap) :
    (goAppend s xs).arr.take (s.off + s.len) = s.arr.take (s.off + s.len) := by
  unfold Slice.WF at hWF
  unfold goAppend
  rw [if_pos h]
  simp only [List.append_assoc]
  rw [List.take_append_of_le_length (by simp; omega)]
  simp

theorem split.frame_keeps (shard : Slice) (j : Nat) (hWF : shard.WF) (hj : j < shard.len)
    (hlast : shard.len ≤ j + 19) : (split.frame shard j).2.bytes = shard.bytes := by
  unfold Slice.WF at hWF
  have hview : ∀ l : List Nat, List.take shard.len (List.drop shard.off l) =
      List.drop shard.off (List.take (shard.off + shard.len) l) := by
    intro l
    rw [List.drop_take, Nat.add_sub_cancel_left]
  have key : ∀ chunk : Slice, chunk.arr = shard.arr → chunk.off + chunk.len = shard.off + shard.len →
      ∀ xs : List Nat, (if chunk.len + xs.length ≤ chunk.cap then
        { shard with arr := (goAppend chunk xs).arr } else shard).bytes = shard.bytes := by
    intro chunk harr hend xs
    split
    · rename_i hfit
      have ht := goAppend_arr_take chunk xs (by unfold Slice.WF; rw [hend, harr]; exact hWF) hfit
      rw [hend, harr] at ht
      simp only [Slice.bytes]
      rw [hview, hview, ht]
    · rfl
  unfold split.frame
  simp only
  split
  · exact key (shard.sliceFrom j) rfl (by simp [Slice.sliceFrom, Slice.slice]; omega) _
  · exact key (shard.slice j (j + 19)) rfl (by simp [Slice.slice]; omega) _

/-! ## The ceiling of `len / 19`, and the panic of line 79 -/

theorem ceil_div_19 (n : Nat) : ⌈(n : ℚ) / 19⌉₊ = (n + 18) / 19 := by
  apply le_antisymm
  · rw [Nat.ceil_le, div_le_iff₀ (by norm_num)]
    have h : n ≤ (n + 18) / 19 * 19 := by omega
    exact_mod_cast h
  · by_cases h0 : (n + 18) / 19 = 0
    · omega
    · have hlt : (n + 18) / 19 - 1 < ⌈(n : ℚ) / 19⌉₊ := by
        rw [Nat.lt_ceil, lt_div_iff₀ (by norm_num)]
        have h : ((n + 18) / 19 - 1) * 19 < n := by omega
        exact_mod_cast h
      omega

theorem split.Run_never_panics_on_encode (env : Env)
    (hsplit : ∀ mnemonic parts threshold,
      ∀ s ∈ (env.Split (env.EntropyFromMnemonic mnemonic).1.bytes parts threshold).1,
        s.WF ∧ IsBytes s.arr)
    (hacc : ∀ chunk : List Nat, chunk.length = 20 → IsBytes chunk →
      (env.NewMnemonic chunk).2 = none)
    (arg0 arg1 : Str) (stdin : Str × Option GoError) (err : GoError) :
    (split.Run env arg0 arg1 stdin).failure ≠ some (.panicNewMnemonic err) := by
  rcases h0 : env.Atoi arg0 with ⟨threshold, _ | e0⟩
  · rcases h1 : env.Atoi arg1 with ⟨numShares, _ | e1⟩
    · by_cases hgt : threshold > numShares
      · simp [split.Run, h0, h1, hgt]
      · rcases stdin with ⟨mnemonic, _ | e2⟩
        · rcases h3 : env.Split (env.EntropyFromMnemonic mnemonic).1.bytes numShares threshold
            with ⟨shards, _ | e3⟩
          · have hmem := hsplit mnemonic numShares threshold
            rw [h3] at hmem
            have hnone : (split.printLoop env shards).2 = none := by
              apply split.printLoop_ok
              intro s hmem' c hc
              obtain ⟨h20, hB⟩ := split.mem_chunks s (hmem s hmem').1 (hmem s hmem').2 c hc
              exact hacc c h20 hB
            simp [split.Run, h0, h1, hgt, h3, hnone]
          · simp [split.Run, h0, h1, hgt, h3]
        · simp [split.Run, h0, h1, hgt]
    · simp [split.Run, h0, h1]
  · simp [split.Run, h0]

namespace toy

theorem EntropyFromMnemonic_IsBytes (mnemonic : Str) :
    IsBytes (EntropyFromMnemonic mnemonic).1.bytes := by
  unfold EntropyFromMnemonic
  simp only
  split
  · rename_i h
    simpa [Slice.bytes, Slice.ofList] using h.2
  · intro x hx
    simp [Slice.bytes] at hx

theorem Split_shares (secret : List Nat) (hb : IsBytes secret) (parts threshold : Int) :
    ∀ s ∈ (Split secret parts threshold).1, s.WF ∧ IsBytes s.arr := by
  unfold Split
  split_ifs with h1 h2 h3 h4 h5
  · simp
  · simp
  · simp
  · simp
  · simp
  · intro s hs
    simp only [List.mem_map, List.mem_range] at hs
    obtain ⟨idx, hidx, rfl⟩ := hs
    refine ⟨by simp [Slice.WF, Slice.ofList], ?_⟩
    apply IsBytes_append hb
    intro x hx
    simp only [List.mem_singleton] at hx
    omega

end toy

/-! ## The claims -/

theorem ChunkCodec.encodes {env : Env} (h : ChunkCodec env) : EncodesChunks env := by
  intro c hc hb
  obtain ⟨ws, hws, hW, henc, _⟩ := h c hc hb
  exact ⟨ws, hws, hW, henc⟩

/-- C1. Chunk-level round trip, evaluated on the 33-byte share `1, 2, ..., 33`: the
chunk loop of `split` (lines 67-82) yields two chunks, the second of which starts
with 19 instead of 20, because framing the first chunk appended its length byte into
the array of the share; these are the chunks the loop hands to the mnemonic encoder;
the chunk logic of `assemble` (line 121) run over these two chunks therefore gives
the share with the byte at index 19 replaced by 19, not the share itself. -/
theorem chunk_round_trip_breaks_at_33_bytes :
    split.chunks (Slice.ofList toy.share33) =
        [[1, 2, 3, 4, 5, 6, 7, 8, 9, 10, 11, 12, 13, 14, 15, 16, 17, 18, 19, 19],
         [19, 21, 22, 23, 24, 25, 26, 27, 28, 29, 30, 31, 32, 33, 0, 0, 0, 0, 0, 14]] ∧
      (split.encodeShard toy.env (Slice.ofList toy.share33)).1 =
        (split.chunks (Slice.ofList toy.share33)).map Event.NewMnemonic ∧
      assemble.decodeChunks (split.chunks (Slice.ofList toy.share33)) =
        .ok (toy.share33.set 19 19) ∧
      toy.share33.set 19 19 ≠ toy.share33 := by
  decide

/-- C2. Shard-level round trip, evaluated with the toy codec (which maps every 20-byte
input to 15 words and those words back to the same bytes) on the 33-byte share
`1, 2, ..., 33`: from the line that `split` prints for this share (lines 63-85),
`assemble` (lines 107-125) reconstructs the share with the byte at index 19 replaced
by 19, not the share itself. -/
theorem shard_round_trip_breaks_at_33_bytes :
    ChunkCodec toy.env ∧
      (assemble.linesLoop toy.env
          (strings.Split (written (split.printLoop toy.env [Slice.ofList toy.share33]).1) 10)
          0 []).2 = .ok [toy.share33.set 19 19] ∧
      toy.share33.set 19 19 ≠ toy.share33 :=
  ⟨toy.chunkCodec, by decide, by decide⟩

/-- C3. End to end for a 24-word secret, evaluated with the toy libraries on a 32-byte
entropy with scheme 3 of 5: any three of the shares returned by `Split` combine to the
secret, `split` succeeds and prints five lines of 30 words each, but `assemble` run on
the first three of these lines prints the mnemonic of the entropy with the byte at
index 19 replaced by 19, which is not the secret mnemonic. -/
theorem end_to_end_24_words_breaks :
    ChunkCodec toy.env ∧
      toy.env.EntropyFromMnemonic toy.mnemonic24 = (Slice.ofList toy.entropy32, none) ∧
      toy.env.NewMnemonic toy.entropy32 = (toy.mnemonic24, none) ∧
      (∀ a ∈ (toy.env.Split toy.entropy32 5 3).1, ∀ b ∈ (toy.env.Split toy.entropy32 5 3).1,
        ∀ c ∈ (toy.env.Split toy.entropy32 5 3).1,
          toy.env.Combine [a.bytes, b.bytes, c.bytes] = (toy.entropy32, none)) ∧
      (split.Run toy.env [51] [53] (toy.mnemonic24, none)).failure = none ∧
      (strings.Split (written (split.Run toy.env [51] [53] (toy.mnemonic24, none)).trace) 10).map
          (fun line => (strings.Split line 32).length) = [30, 30, 30, 30, 30, 1] ∧
      (assemble.Run toy.env (unlines ((strings.Split (written
          (split.Run toy.env [51] [53] (toy.mnemonic24, none)).trace) 10).take 3),
          none)).failure = none ∧
      written (assemble.Run toy.env (unlines ((strings.Split (written
          (split.Run toy.env [51] [53] (toy.mnemonic24, none)).trace) 10).take 3),
          none)).trace = (toy.NewMnemonic (toy.entropy32.set 19 19)).1 ++ [10] ∧
      (toy.NewMnemonic (toy.entropy32.set 19 19)).1 ≠ toy.mnemonic24 :=
  ⟨toy.chunkCodec, by decide, by decide, by decide, by decide, by decide, by decide, by decide,
    by decide⟩

/-- C4. End to end for a 12-word secret with a 3 of 5 scheme. Assume the arguments parse
to 3 and 5, the codec round-trips every 20-byte chunk (`ChunkCodec`), the secret
mnemonic decodes to a 16-byte entropy that encodes back to it, `Split` returns five
shares each of 1 to 19 bytes (16 in the data model of the specification, 17 with the
tag byte of the sharing library), and `Combine` of any three distinct shares returns
the entropy. Then `split` succeeds and prints exactly five lines, each of 15 words, and
`assemble` run on any three distinct lines of the five, in any order, succeeds and
prints exactly the secret mnemonic. -/
theorem end_to_end_12_words_3_of_5 (env : Env) (arg0 arg1 secretMnemonic : Str)
    (secret : Slice) (shards : List Slice)
    (hcodec : ChunkCodec env)
    (hN : env.Atoi arg0 = (3, none)) (hM : env.Atoi arg1 = (5, none))
    (hdec : env.EntropyFromMnemonic secretMnemonic = (secret, none))
    (_hlen : secret.bytes.length = 16)
    (henc : env.NewMnemonic secret.bytes = (secretMnemonic, none))
    (hsplit : env.Split secret.bytes 5 3 = (shards, none))
    (hcount : shards.length = 5)
    (hshard : ∀ s ∈ shards, s.WF ∧ IsBytes s.bytes ∧ 1 ≤ s.len ∧ s.len ≤ 19)
    (hcombine : ∀ (a b c : Nat) (sa sb sc : Slice), a ≠ b → a ≠ c → b ≠ c →
      shards[a]? = some sa → shards[b]? = some sb → shards[c]? = some sc →
      env.Combine [sa.bytes, sb.bytes, sc.bytes] = (secret.bytes, none)) :
    ∃ lines : List Str, lines.length = 5 ∧
      (split.Run env arg0 arg1 (secretMnemonic, none)).failure = none ∧
      written (split.Run env arg0 arg1 (secretMnemonic, none)).trace = unlines lines ∧
      (∀ line ∈ lines, ∃ ws : List Str, ws.length = 15 ∧ AreWords ws ∧
        line = strings.Join ws 32) ∧
      ∀ (a b c : Nat) (la lb lc : Str), a ≠ b → a ≠ c → b ≠ c →
        lines[a]? = some la → lines[b]? = some lb → lines[c]? = some lc →
        (assemble.Run env (unlines [la, lb, lc], none)).failure = none ∧
        written (assemble.Run env (unlines [la, lb, lc], none)).trace = secretMnemonic ++ [10] := by
  obtain ⟨lines, hF, hnone, hw⟩ := split.printLoop_single_chunks env hcodec shards hshard
  have hrun : split.Run env arg0 arg1 (secretMnemonic, none) =
      ⟨.EntropyFromMnemonic secretMnemonic :: .Split secret.bytes 5 3 ::
        (split.printLoop env shards).1, (split.printLoop env shards).2⟩ := by
    simp only [split.Run, hN, hM, hdec, hsplit]
    rw [if_neg (by decide)]
  refine ⟨lines, ?_, ?_, ?_, ?_, ?_⟩
  · rw [← hF.length_eq, hcount]
  · rw [hrun]; exact hnone
  · rw [hrun]
    simp only [written, Event.written, List.nil_append]
    exact hw
  · intro line hline
    obtain ⟨k, hk⟩ := List.getElem?_of_mem hline
    obtain ⟨s, _, hs⟩ := Forall₂_getElem? hF k line hk
    exact hs.1
  · intro a b c la lb lc hab hac hbc hla hlb hlc
    obtain ⟨sa, hsa, hRa⟩ := Forall₂_getElem? hF a la hla
    obtain ⟨sb, hsb, hRb⟩ := Forall₂_getElem? hF b lb hlb
    obtain ⟨sc, hsc, hRc⟩ := Forall₂_getElem? hF c lc hlc
    exact assemble.Run_three_lines env secretMnemonic secret.bytes sa sb sc la lb lc hRa hRb hRc
      henc (hcombine a b c sa sb sc hab hac hbc hsa hsb hsc)

/-- The theorem of C4 at the toy libraries, with the arguments `3` and `5` and the
12-word mnemonic of the entropy `0, 1, ..., 15`. -/
theorem end_to_end_12_words_3_of_5_witness :
    ∃ lines : List Str, lines.length = 5 ∧
      (split.Run toy.env [51] [53] (toy.mnemonic12, none)).failure = none ∧
      written (split.Run toy.env [51] [53] (toy.mnemonic12, none)).trace = unlines lines ∧
      (∀ line ∈ lines, ∃ ws : List Str, ws.length = 15 ∧ AreWords ws ∧
        line = strings.Join ws 32) ∧
      ∀ (a b c : Nat) (la lb lc : Str), a ≠ b → a ≠ c → b ≠ c →
        lines[a]? = some la → lines[b]? = some lb → lines[c]? = some lc →
        (assemble.Run toy.env (unlines [la, lb, lc], none)).failure = none ∧
        written (assemble.Run toy.env (unlines [la, lb, lc], none)).trace =
          toy.mnemonic12 ++ [10] :=
  end_to_end_12_words_3_of_5 toy.env [51] [53] toy.mnemonic12 (Slice.ofList toy.entropy16)
    (toy.Split toy.entropy16 5 3).1 toy.chunkCodec (by decide) (by decide) (by decide)
    (by decide) (by decide) (by decide) (by decide) (by decide)
    (by
      intro a b c sa sb sc _ _ _ ha _ _
      have hall : ∀ s ∈ (toy.Split toy.entropy16 5 3).1,
          s.bytes.dropLast = (Slice.ofList toy.entropy16).bytes := by decide
      have hsa := hall sa (List.getElem?_mem ha)
      show toy.Combine [sa.bytes, sb.bytes, sc.bytes] = _
      rw [← hsa]
      rfl)

/-- C5. Chunk payloads, evaluated on the 33-byte share `1, 2, ..., 33`: the first 14
bytes of chunk 1 are `19, 21, ..., 33` while bytes 19 to 32 of the share as it was
before encoding are `20, 21, ..., 33`; and the loop leaves the share changed, with 19
at index 19. -/
theorem chunk_payload_differs_at_33_bytes :
    (split.chunks (Slice.ofList toy.share33))[1]?.map (List.take 14) =
        some [19, 21, 22, 23, 24, 25, 26, 27, 28, 29, 30, 31, 32, 33] ∧
      (toy.share33.drop 19).take 14 = [20, 21, 22, 23, 24, 25, 26, 27, 28, 29, 30, 31, 32, 33] ∧
      (split.frameLoop 33 (Slice.ofList toy.share33) 0).2.bytes = toy.share33.set 19 19 ∧
      toy.share33.set 19 19 ≠ toy.share33 := by
  decide

/-- C6. Chunk format invariant. For shards that lie within their arrays of bytes: the
chunk of index i of a shard is 20 bytes long, its last byte is the number
min(19, len - 19 i) of payload bytes taken for it, which is at most 19, and its bytes
from that index up to 18 are zero (`Framed`); every argument of a call of the mnemonic
encoder made by the loop of lines 63-85 has this format, so is 20 bytes long; and when
the encoder accepts every 20-byte input the loop ends without the panic of line 79,
and no run of `split` ends with that panic when the sharing library returns such
shards. -/
theorem chunk_format_invariant (env : Env) (shards : List Slice)
    (hs : ∀ s ∈ shards, s.WF ∧ IsBytes s.arr) :
    (∀ s ∈ shards, ∀ (i : Nat) (chunk : List Nat), (split.chunks s)[i]? = some chunk →
      Framed chunk (min 19 (s.len - 19 * i))) ∧
    (∀ chunk : List Nat, Event.NewMnemonic chunk ∈ (split.printLoop env shards).1 →
      ∃ L, Framed chunk L) ∧
    ((∀ chunk : List Nat, chunk.length = 20 → IsBytes chunk → (env.NewMnemonic chunk).2 = none) →
      (split.printLoop env shards).2 = none ∧
      ((∀ mnemonic parts threshold,
          ∀ s ∈ (env.Split (env.EntropyFromMnemonic mnemonic).1.bytes parts threshold).1,
            s.WF ∧ IsBytes s.arr) →
        ∀ (arg0 arg1 : Str) (stdin : Str × Option GoError) (err : GoError),
          (split.Run env arg0 arg1 stdin).failure ≠ some (.panicNewMnemonic err))) := by
  refine ⟨?_, ?_, ?_⟩
  · intro s hmem i chunk hc
    exact (split.chunks_framed s (hs s hmem).1 i chunk hc).2
  · intro chunk hc
    obtain ⟨s, hmem, hin⟩ := split.printLoop_calls env shards chunk hc
    obtain ⟨i, hi⟩ := List.getElem?_of_mem hin
    exact ⟨_, (split.chunks_framed s (hs s hmem).1 i chunk hi).2⟩
  · intro hacc
    refine ⟨?_, ?_⟩
    · apply split.printLoop_ok
      intro s hmem c hc
      obtain ⟨h20, hB⟩ := split.mem_chunks s (hs s hmem).1 (hs s hmem).2 c hc
      exact hacc c h20 hB
    · intro hsplit arg0 arg1 stdin err
      exact split.Run_never_panics_on_encode env hsplit hacc arg0 arg1 stdin err

/-- C7. Chunk and word count law. For a shard that lies within its array of bytes, and
an encoder that returns 15 words for every 20-byte chunk: the loop produces
ceil(len / 19) chunks (none for an empty shard), the encoder is called on exactly these
chunks, and the line printed for the shard is 15 * ceil(len / 19) words joined by
single spaces, which for a shard that is not empty is also the number of pieces
`strings.Split` finds in it. -/
theorem chunk_and_word_count (env : Env) (shard : Slice) (hWF : shard.WF)
    (hB : IsBytes shard.arr) (henc : EncodesChunks env) :
    (split.chunks shard).length = ⌈(shard.len : ℚ) / 19⌉₊ ∧
    (split.encodeShard env shard).1 = (split.chunks shard).map Event.NewMnemonic ∧
    ∃ ws : List Str, ws.length = 15 * ⌈(shard.len : ℚ) / 19⌉₊ ∧ AreWords ws ∧
      (split.encodeShard env shard).2 = .ok (strings.Join ws 32) ∧
      written (split.printLoop env [shard]).1 = strings.Join ws 32 ++ [10] ∧
      (0 < shard.len →
        (strings.Split (strings.Join ws 32) 32).length = 15 * ⌈(shard.len : ℚ) / 19⌉₊) := by
  obtain ⟨hacc, ws, hws, hW, hJ⟩ :=
    words_of_chunks env henc (split.chunks shard) (split.mem_chunks shard hWF hB)
  have hok := split.encodeShard_ok env shard hacc
  rw [split.chunks_length] at hws
  rw [ceil_div_19]
  refine ⟨split.chunks_length shard, by rw [hok], ws, hws, hW, by rw [hok, hJ], ?_, ?_⟩
  · rw [split.printLoop_cons_ok _ _ _ _ _ hok, written_append, hJ]
    simp [written, Event.written, split.printLoop, written_map_NewMnemonic]
  · intro hpos
    rw [strings.Split_Join ws 32 _ hW.sep_free, hws]
    intro h
    rw [h] at hws
    simp at hws
    omega

/-- The theorem of C6 at the toy libraries and the 33-byte share `1, 2, ..., 33`; the
toy encoder accepts every 20-byte input and the toy shares lie within arrays of bytes,
so that both conclusions on the panic hold outright. -/
theorem chunk_format_invariant_witness :
    (∀ s ∈ [Slice.ofList toy.share33], ∀ (i : Nat) (chunk : List Nat),
      (split.chunks s)[i]? = some chunk → Framed chunk (min 19 (s.len - 19 * i))) ∧
    (∀ chunk : List Nat,
      Event.NewMnemonic chunk ∈ (split.printLoop toy.env [Slice.ofList toy.share33]).1 →
      ∃ L, Framed chunk L) ∧
    (split.printLoop toy.env [Slice.ofList toy.share33]).2 = none ∧
    ∀ (arg0 arg1 : Str) (stdin : Str × Option GoError) (err : GoError),
      (split.Run toy.env arg0 arg1 stdin).failure ≠ some (.panicNewMnemonic err) :=
  have h := chunk_format_invariant toy.env [Slice.ofList toy.share33] (by decide)
  have hacc : ∀ chunk : List Nat, chunk.length = 20 → IsBytes chunk →
      (toy.env.NewMnemonic chunk).2 = none := fun chunk h20 _ => by
    show (toy.NewMnemonic chunk).2 = none
    rw [toy.NewMnemonic_chunk chunk h20]
  ⟨h.1, h.2.1, (h.2.2 hacc).1, (h.2.2 hacc).2 (fun mnemonic parts threshold =>
    toy.Split_shares _ (toy.EntropyFromMnemonic_IsBytes mnemonic) parts threshold)⟩

/-- The theorem of C7 at the toy libraries and the 33-byte share `1, 2, ..., 33`. -/
theorem chunk_and_word_count_witness :
    (split.chunks (Slice.ofList toy.share33)).length =
      ⌈((Slice.ofList toy.share33).len : ℚ) / 19⌉₊ ∧
    (split.encodeShard toy.env (Slice.ofList toy.share33)).1 =
      (split.chunks (Slice.ofList toy.share33)).map Event.NewMnemonic ∧
    ∃ ws : List Str, ws.length = 15 * ⌈((Slice.ofList toy.share33).len : ℚ) / 19⌉₊ ∧
      AreWords ws ∧
      (split.encodeShard toy.env (Slice.ofList toy.share33)).2 = .ok (strings.Join ws 32) ∧
      written (split.printLoop toy.env [Slice.ofList toy.share33]).1 =
        strings.Join ws 32 ++ [10] ∧
      (0 < (Slice.ofList toy.share33).len →
        (strings.Split (strings.Join ws 32) 32).length =
          15 * ⌈((Slice.ofList toy.share33).len : ℚ) / 19⌉₊) :=
  chunk_and_word_count toy.env (Slice.ofList toy.share33) (by decide) (by decide)
    toy.chunkCodec.encodes

/-- C8, as stated, fails: the 20-byte chunk `chunk20`, whose last byte is 20, is decoded
without any failure, and all of its 20 bytes, the length byte included, become bytes of
the reconstructed share. -/
theorem length_byte_20_is_accepted :
    toy.chunk20.length = 20 ∧ toy.chunk20[19]? = some 20 ∧
      assemble.payload (Slice.ofList toy.chunk20) = .ok toy.chunk20 ∧
      assemble.decodeLine toy.env 0 (toy.NewMnemonic toy.chunk20).1 =
        ([.EntropyFromMnemonic (toy.NewMnemonic toy.chunk20).1], .ok toy.chunk20) := by
  decide

/-- C8, amended. When the mnemonic decoder returns, for the word group at `j`, a 20-byte
chunk of capacity 20 whose last byte is greater than 20, the slice expression of
line 121 panics (slice bounds out of range): the loop over the words ends there with
that failure, right after the call of the decoder, and no shard is produced. -/
theorem length_byte_above_20_panics (env : Env) (i : Nat) (mnemonicWords : List Str)
    (fuel j : Nat) (shard : List Nat) (chunk : Slice) (L : Nat)
    (hj : j + 15 ≤ mnemonicWords.length)
    (hd : env.EntropyFromMnemonic (strings.Join ((mnemonicWords.drop j).take 15) 32) =
      (chunk, none))
    (hlen : chunk.len = 20) (hcap : chunk.cap = 20)
    (hlast : chunk.bytes[19]? = some L) (hL : 20 < L) :
    assemble.payload chunk = .error .panicSliceBounds ∧
      assemble.decodeLoop env i mnemonicWords (fuel + 1) j shard =
        ([.EntropyFromMnemonic (strings.Join ((mnemonicWords.drop j).take 15) 32)],
          .error .panicSliceBounds) := by
  have hp : assemble.payload chunk = .error .panicSliceBounds := by
    have hget : chunk.arr.getD (chunk.off + (chunk.len - 1)) 0 = L := by
      rw [chunk.getD_arr _ (by omega), hlen, List.getD_eq_getElem?_getD, hlast]
      rfl
    unfold assemble.payload
    rw [if_neg (by omega)]
    simp only [hget]
    rw [if_pos (by omega)]
  exact ⟨hp, assemble.decodeLoop_panic env i mnemonicWords fuel j shard (by omega) (by omega)
    chunk hd _ hp⟩

/-- The theorem of C8 amended, at the toy codec and the 15 words of `chunk21`, whose last
byte is 21. -/
theorem length_byte_above_20_panics_witness :
    assemble.payload (Slice.ofList toy.chunk21) = .error .panicSliceBounds ∧
      assemble.decodeLoop toy.env 0 (strings.Split (toy.NewMnemonic toy.chunk21).1 32)
          (14 + 1) 0 [] =
        ([.EntropyFromMnemonic (strings.Join
            (((strings.Split (toy.NewMnemonic toy.chunk21).1 32).drop 0).take 15) 32)],
          .error .panicSliceBounds) :=
  length_byte_above_20_panics toy.env 0 (strings.Split (toy.NewMnemonic toy.chunk21).1 32)
    14 0 [] (Slice.ofList toy.chunk21) 21 (by decide) (by decide) (by decide) (by decide)
    (by decide) (by decide)

/-- C9, as stated, fails: on `line16`, a line of 16 words, the loop of lines 114-122
first calls the mnemonic decoder on the first 15 words, and only then fails, on the
slice expression `mnemonicWords[15:30]`. -/
theorem sixteen_words_are_decoded_first :
    toy.line16 ≠ [] ∧ (strings.Split toy.line16 32).length = 16 ∧
      assemble.decodeLine toy.env 0 toy.line16 =
        ([.EntropyFromMnemonic (strings.Join ((strings.Split toy.line16 32).take 15) 32)],
          .error .panicSliceBounds) := by
  decide

/-- C9, amended. Let the input have a line that is not empty, comes before any empty
line, and whose number of pieces between single spaces is not a multiple of 15; its
complete groups of 15 words are the groups 0, 1, ... Then `assemble` fails, and every
event of the run is a call of the mnemonic decoder: the sharing library is not called
and nothing is printed. The loop over the words of that line never completes. With
fewer than 15 words it fails at once on the slice expression, with no decoder call;
otherwise it starts by calling the decoder on the first 15 words. When every complete
group decodes to a chunk whose length byte is within its capacity, the loop calls the
decoder on every complete group, in order, and then fails with the slice-bounds panic
at the incomplete group. Otherwise, at the first complete group `g` that does not, the
loop has called the decoder on the groups 0 to `g`, in order, and fails there: with
the fatal error of line 118 for word offset `15 * g` of that line when the decoder
rejects the group, with the panic of line 121 when the length byte is out of range.
When the lines before it decode, the failure of the line is the failure of the run. -/
theorem malformed_shard_fails (env : Env) (input : Str) (pre post : List Str) (mnemonic : Str)
    (hlines : strings.Split input 10 = pre ++ mnemonic :: post)
    (hpre : ∀ l ∈ pre, l ≠ []) (hne : mnemonic ≠ [])
    (hcount : (strings.Split mnemonic 32).length % 15 ≠ 0) :
    (∃ f, (assemble.Run env (input, none)).failure = some f) ∧
    (∀ e ∈ (assemble.Run env (input, none)).trace, ∃ m, e = Event.EntropyFromMnemonic m) ∧
    (∀ i, ∃ f, (assemble.decodeLine env i mnemonic).2 = .error f) ∧
    ((strings.Split mnemonic 32).length < 15 →
      ∀ i, assemble.decodeLine env i mnemonic = ([], .error .panicSliceBounds)) ∧
    (15 ≤ (strings.Split mnemonic 32).length →
      ∀ i, ∃ t, (assemble.decodeLine env i mnemonic).1 =
        Event.EntropyFromMnemonic (strings.Join ((strings.Split mnemonic 32).take 15) 32) :: t) ∧
    ((∀ h, h < (strings.Split mnemonic 32).length / 15 →
        assemble.GroupDecodes env (strings.Split mnemonic 32) h) →
      ∀ i, assemble.decodeLine env i mnemonic =
        ((List.range ((strings.Split mnemonic 32).length / 15)).map
            (fun g => Event.EntropyFromMnemonic (assemble.group (strings.Split mnemonic 32) g)),
          .error .panicSliceBounds)) ∧
    (∀ g, g < (strings.Split mnemonic 32).length / 15 →
      (∀ h, h < g → assemble.GroupDecodes env (strings.Split mnemonic 32) h) →
      ∀ (i : Nat) (chunk : Slice),
        (∀ err, env.EntropyFromMnemonic (assemble.group (strings.Split mnemonic 32) g) =
            (chunk, some err) →
          assemble.decodeLine env i mnemonic =
            ((List.range (g + 1)).map
                (fun k => Event.EntropyFromMnemonic
                  (assemble.group (strings.Split mnemonic 32) k)),
              .error (.fatalChunk (15 * g) i err))) ∧
        (∀ f, env.EntropyFromMnemonic (assemble.group (strings.Split mnemonic 32) g) =
            (chunk, none) → assemble.payload chunk = .error f →
          assemble.decodeLine env i mnemonic =
            ((List.range (g + 1)).map
                (fun k => Event.EntropyFromMnemonic
                  (assemble.group (strings.Split mnemonic 32) k)),
              .error f))) ∧
    ((∀ (k : Nat) (l : Str), pre[k]? = some l → ∃ s, (assemble.decodeLine env k l).2 = .ok s) →
      ∀ f, (assemble.decodeLine env pre.length mnemonic).2 = .error f →
        (assemble.Run env (input, none)).failure = some f) := by
  have hbad : ∀ i, ∃ f, (assemble.decodeLine env i mnemonic).2 = .error f := fun i =>
    assemble.decodeLoop_malformed env i _ hcount _ 0 [] rfl (Nat.zero_le _) (by omega)
  obtain ⟨f, hf⟩ := assemble.linesLoop_malformed env pre post mnemonic hpre hne hbad 0 []
  rw [← hlines] at hf
  have hrun := assemble.Run_of_linesLoop_error env input f hf
  refine ⟨⟨f, by rw [hrun]⟩, ?_, hbad, ?_, ?_,
    fun hok i => assemble.decodeLine_incomplete env i mnemonic hcount hok,
    fun g hg hok i chunk => assemble.decodeLine_first_failure env i mnemonic g hg hok chunk, ?_⟩
  · rw [hrun]
    exact assemble.linesLoop_OnlyDecodes _ _ _ _
  · intro hlt i
    unfold assemble.decodeLine
    simp only
    obtain ⟨n, hn⟩ : ∃ n, (strings.Split mnemonic 32).length = n + 1 :=
      ⟨(strings.Split mnemonic 32).length - 1, by omega⟩
    have h := assemble.decodeLoop_bounds env i (strings.Split mnemonic 32) n 0 []
      (by omega) (by omega)
    rw [← hn] at h
    exact h
  · intro hge i
    unfold assemble.decodeLine
    simp only
    obtain ⟨n, hn⟩ : ∃ n, (strings.Split mnemonic 32).length = n + 1 :=
      ⟨(strings.Split mnemonic 32).length - 1, by omega⟩
    have h := assemble.decodeLoop_cases env i (strings.Split mnemonic 32) n 0 []
      (by omega) (by omega)
    rw [← hn, List.drop_zero] at h
    rcases h with ⟨f, h⟩ | ⟨bytes, h⟩
    · rw [h]
      exact ⟨[], rfl⟩
    · rw [h]
      exact ⟨_, rfl⟩
  · intro hok g hg
    have h := assemble.linesLoop_first_error env pre post mnemonic hpre hne 0 [] g
      (fun k l hk => by rw [Nat.zero_add]; exact hok k l hk) (by rw [Nat.zero_add]; exact hg)
    rw [← hlines] at h
    rw [assemble.Run_of_linesLoop_error env input g h]

/-- The theorem of C9 amended, at the toy libraries: on the input made of `line15` and
`line31` the run fails with the slice-bounds panic, after the decoder calls on both
complete groups of `line31`; on `line31Tampered` the loop fails at group 1, which the
decoder rejects, after the decoder calls on the groups 0 and 1. -/
theorem malformed_shard_fails_witness :
    (assemble.Run toy.env (unlines [toy.line15, toy.line31], none)).failure =
      some .panicSliceBounds ∧
    (∀ e ∈ (assemble.Run toy.env (unlines [toy.line15, toy.line31], none)).trace,
      ∃ m, e = Event.EntropyFromMnemonic m) ∧
    (∀ i, assemble.decodeLine toy.env i toy.line31 =
      ([.EntropyFromMnemonic (assemble.group (strings.Split toy.line31 32) 0),
        .EntropyFromMnemonic (assemble.group (strings.Split toy.line31 32) 1)],
        .error .panicSliceBounds)) ∧
    (∀ i, assemble.decodeLine toy.env i toy.line31Tampered =
      ([.EntropyFromMnemonic (assemble.group (strings.Split toy.line31Tampered 32) 0),
        .EntropyFromMnemonic (assemble.group (strings.Split toy.line31Tampered 32) 1)],
        .error (.fatalChunk 15 i "Invalid mnenomic"))) :=
  have h := malformed_shard_fails toy.env (unlines [toy.line15, toy.line31]) [toy.line15] [[]]
    toy.line31 (by decide) (by decide) (by decide) (by decide)
  have hok : ∀ g, g < (strings.Split toy.line31 32).length / 15 →
      assemble.GroupDecodes toy.env (strings.Split toy.line31 32) g := fun g hg => by
    have hq : (strings.Split toy.line31 32).length / 15 = 2 := by decide
    rw [hq] at hg
    interval_cases g
    · exact ⟨Slice.ofList (List.replicate 16 7 ++ [0, 0, 0, 16]), List.replicate 16 7,
        by decide, by decide⟩
    · exact ⟨Slice.ofList (List.replicate 16 7 ++ [0, 0, 0, 16]), List.replicate 16 7,
        by decide, by decide⟩
  have hpre : ∀ (k : Nat) (l : Str), [toy.line15][k]? = some l →
      ∃ s, (assemble.decodeLine toy.env k l).2 = .ok s := fun k l hk => by
    cases k with
    | zero =>
      simp only [List.getElem?_cons_zero, Option.some.injEq] at hk
      subst hk
      exact ⟨List.replicate 16 7, by decide⟩
    | succ n => simp at hk
  have hok1 : ∀ g, g < 1 →
      assemble.GroupDecodes toy.env (strings.Split toy.line31Tampered 32) g := fun g hg => by
    interval_cases g
    exact ⟨Slice.ofList (List.replicate 16 7 ++ [0, 0, 0, 16]), List.replicate 16 7,
      by decide, by decide⟩
  ⟨h.2.2.2.2.2.2.2 hpre _ (by rw [h.2.2.2.2.2.1 hok]), h.2.1, h.2.2.2.2.2.1 hok,
    fun i => ((malformed_shard_fails toy.env (unlines [toy.line31Tampered]) [] [[]]
      toy.line31Tampered (by decide) (by decide) (by decide) (by decide)).2.2.2.2.2.2.1 1
      (by decide) hok1 i
      (toy.EntropyFromMnemonic (assemble.group (strings.Split toy.line31Tampered 32) 1)).1).1
      "Invalid mnenomic" (by decide)⟩

/-- C10. An invalid secret mnemonic in `split`, evaluated with the toy libraries on the
input `foo` with scheme 2 of 3: the mnemonic decoder rejects the input, yet the run
goes on to call `Split`, on the empty entropy the decoder returned with its error, and
the failure of the run is the one of line 60, raised for the error of `Split`. -/
theorem invalid_secret_reaches_the_sharing_library :
    (toy.env.EntropyFromMnemonic [102, 111, 111]).2 = some "Invalid mnenomic" ∧
      split.Run toy.env [50] [51] ([102, 111, 111], none) =
        ⟨[.EntropyFromMnemonic [102, 111, 111], .Split [] 3 2],
          some (.fatalSplit "cannot split an empty secret")⟩ := by
  decide

/-! ## The write of a pass, and the payload of a chunk -/

theorem split.frame_overwrites_arr (shard : Slice) (j : Nat) (hWF : shard.WF)
    (hj : j + 19 < shard.len) :
    (split.frame shard j).2.arr = shard.arr.set (shard.off + (j + 19)) 19 := by
  unfold Slice.WF at hWF
  unfold split.frame
  simp only [if_neg (show ¬ j + 19 > shard.len by omega)]
  have hfit : (shard.slice j (j + 19)).len + (List.replicate (19 - (shard.slice j (j + 19)).len) 0
      ++ [(shard.slice j (j + 19)).len % 256]).length ≤ (shard.slice j (j + 19)).cap := by
    simp only [Slice.slice, Slice.cap, Nat.add_sub_cancel_left, Nat.sub_self, List.replicate_zero,
      List.nil_append, List.length_singleton]
    omega
  rw [if_pos hfit]
  unfold goAppend
  rw [if_pos hfit]
  simp only [Slice.slice, Nat.add_sub_cancel_left, Nat.sub_self, List.replicate_zero,
    List.nil_append, List.length_singleton]
  rw [List.set_eq_take_append_cons_drop, if_pos (by omega)]
  simp [Nat.add_assoc]

theorem split.frame_full_capacity (shard : Slice) (j : Nat) (hcap : j + 19 = shard.cap) :
    (split.frame shard j).2 = shard := by
  unfold Slice.cap at hcap
  unfold split.frame
  simp only
  split_ifs with h1 h2 h2
  · exfalso
    simp only [Slice.sliceFrom, Slice.slice, Slice.cap, List.length_append, List.length_replicate,
      List.length_singleton] at h2
    omega
  · rfl
  · exfalso
    simp only [Slice.slice, Slice.cap, List.length_append, List.length_replicate,
      List.length_singleton] at h2
    omega
  · rfl

theorem assemble.payload_take (chunk : Slice) (hWF : chunk.WF) (hlen : chunk.len = 20) (L : Nat)
    (hlast : chunk.bytes[19]? = some L) (hL : L ≤ 20) :
    assemble.payload chunk = .ok (chunk.bytes.take L) := by
  have hget : chunk.arr.getD (chunk.off + (chunk.len - 1)) 0 = L := by
    rw [chunk.getD_arr _ (by omega), hlen, List.getD_eq_getElem?_getD, hlast]
    rfl
  unfold Slice.WF at hWF
  unfold assemble.payload
  rw [if_neg (by omega)]
  simp only [hget]
  rw [if_neg (by unfold Slice.cap; omega)]
  congr 1
  simp only [Slice.slice, Slice.bytes, Nat.add_zero, Nat.sub_zero, List.take_take]
  congr 1
  omega

/-! ## What has been printed when a run fails -/

theorem split.encodeLoop_failure (env : Env) (fuel : Nat) (shard : Slice) (j : Nat)
    (acc : List Str) (f : Failure) (h : (split.encodeLoop env fuel shard j acc).2 = .error f) :
    ∃ err, f = .panicNewMnemonic err := by
  induction fuel generalizing shard j acc with
  | zero => simp [split.encodeLoop] at h
  | succ n ih =>
    by_cases hj : j < shard.len
    · rcases hm : env.NewMnemonic (split.frame shard j).1.bytes with ⟨m, _ | err⟩
      · rw [split.encodeLoop_succ_ok _ _ _ _ _ hj _ hm] at h
        exact ih _ _ _ h
      · rw [split.encodeLoop_succ_err _ _ _ _ _ hj _ _ hm] at h
        simp only [Except.error.injEq] at h
        exact ⟨err, h.symm⟩
    · rw [split.encodeLoop_done _ _ _ _ _ hj] at h
      cases h

theorem split.encodeShard_failure (env : Env) (shard : Slice) (f : Failure)
    (h : (split.encodeShard env shard).2 = .error f) : ∃ err, f = .panicNewMnemonic err := by
  unfold split.encodeShard at h
  rcases he : split.encodeLoop env shard.len shard 0 [] with ⟨t, g | cs⟩
  · rw [he] at h
    simp only [Except.error.injEq] at h
    subst h
    exact split.encodeLoop_failure env shard.len shard 0 [] g (by rw [he])
  · rw [he] at h
    cases h

theorem written_eq_nil (t : List Event) (h : ∀ e ∈ t, e.written = []) : written t = [] := by
  induction t with
  | nil => rfl
  | cons e es ih =>
    simp only [written, h e (List.mem_cons_self _ _), List.nil_append]
    exact ih (fun x hx => h x (List.mem_cons_of_mem _ hx))

theorem split.encodeShard_written (env : Env) (shard : Slice) :
    written (split.encodeShard env shard).1 = [] := by
  apply written_eq_nil
  intro e he
  have hsub := (split.encodeShard_trace_initial env shard).subset he
  obtain ⟨c, _, rfl⟩ := List.mem_map.1 hsub
  rfl

theorem split.printLoop_written (env : Env) (shards : List Slice) :
    ∃ (done : List Slice) (lines : List Str),
      List.Forall₂ (fun s line => (split.encodeShard env s).2 = .ok line) done lines ∧
      written (split.printLoop env shards).1 = unlines lines ∧
      (((split.printLoop env shards).2 = none ∧ done = shards) ∨
        ∃ (failing : Slice) (rest : List Slice) (err : GoError),
          shards = done ++ failing :: rest ∧
          (split.encodeShard env failing).2 = .error (.panicNewMnemonic err) ∧
          (split.printLoop env shards).2 = some (.panicNewMnemonic err)) := by
  induction shards with
  | nil => exact ⟨[], [], List.Forall₂.nil, rfl, Or.inl ⟨rfl, rfl⟩⟩
  | cons s rest ih =>
    have hw := split.encodeShard_written env s
    rcases he : split.encodeShard env s with ⟨t, f | line⟩
    · obtain ⟨err, rfl⟩ := split.encodeShard_failure env s f (by rw [he])
      rw [he] at hw
      refine ⟨[], [], List.Forall₂.nil, ?_, Or.inr ⟨s, rest, err, rfl, by rw [he], ?_⟩⟩
      · rw [split.printLoop_cons_err _ _ _ _ _ he]
        exact hw
      · rw [split.printLoop_cons_err _ _ _ _ _ he]
    · obtain ⟨done, lines, hF, hwr, hcase⟩ := ih
      rw [he] at hw
      refine ⟨s :: done, line :: lines, List.Forall₂.cons (by rw [he]) hF, ?_, ?_⟩
      · rw [split.printLoop_cons_ok _ _ _ _ _ he, written_append, hw]
        simp only [written, Event.written, List.nil_append, unlines, hwr]
        simp
      · rw [split.printLoop_cons_ok _ _ _ _ _ he]
        rcases hcase with ⟨hnone, hdone⟩ | ⟨failing, rest', err, hsh, hfail, hres⟩
        · exact Or.inl ⟨hnone, by rw [hdone]⟩
        · exact Or.inr ⟨failing, rest', err, by rw [hsh]; rfl, hfail, hres⟩

theorem split.printLoop_failure (env : Env) (shards : List Slice) (f : Failure)
    (h : (split.printLoop env shards).2 = some f) : ∃ err, f = .panicNewMnemonic err := by
  obtain ⟨_, _, _, _, ⟨hnone, _⟩ | ⟨_, _, err, _, _, hres⟩⟩ := split.printLoop_written env shards
  · rw [hnone] at h
    cases h
  · rw [hres] at h
    simp only [Option.some.injEq] at h
    exact ⟨err, h.symm⟩

theorem assemble.Run_failure_written (env : Env) (stdin : Str × Option GoError) (f : Failure)
    (h : (assemble.Run env stdin).failure = some f) :
    written (assemble.Run env stdin).trace = [] := by
  rcases stdin with ⟨input, _ | e⟩
  · have hd := assemble.linesLoop_OnlyDecodes env (strings.Split input 10) 0 []
    rcases hl : assemble.linesLoop env (strings.Split input 10) 0 [] with ⟨t, g | shares⟩
    · rw [hl] at hd
      simp only [assemble.Run, hl]
      exact hd.written
    · rw [hl] at hd
      rcases hc : env.Combine shares with ⟨entropy, _ | e1⟩
      · rcases hn : env.NewMnemonic entropy with ⟨m, _ | e2⟩
        · simp [assemble.Run, hl, hc, hn] at h
        · simp only [assemble.Run, hl, hc, hn, written_append, hd.written]
          rfl
      · simp only [assemble.Run, hl, hc, written_append, hd.written]
        rfl
  · rfl

theorem split.Run_cases (env : Env) (arg0 arg1 : Str) (stdin : Str × Option GoError) :
    (written (split.Run env arg0 arg1 stdin).trace = [] ∧
      ∃ f, (split.Run env arg0 arg1 stdin).failure = some f ∧ ∀ err, f ≠ .panicNewMnemonic err) ∨
    ∃ (mnemonic : Str) (numShares threshold : Int) (shards : List Slice),
      stdin = (mnemonic, none) ∧
      env.Split (env.EntropyFromMnemonic mnemonic).1.bytes numShares threshold = (shards, none) ∧
      written (split.Run env arg0 arg1 stdin).trace = written (split.printLoop env shards).1 ∧
      (split.Run env arg0 arg1 stdin).failure = (split.printLoop env shards).2 := by
  rcases h0 : env.Atoi arg0 with ⟨threshold, _ | e0⟩
  · rcases h1 : env.Atoi arg1 with ⟨numShares, _ | e1⟩
    · by_cases hgt : threshold > numShares
      · left
        simp only [split.Run, h0, h1, if_pos hgt]
        exact ⟨rfl, _, rfl, by simp⟩
      · rcases stdin with ⟨mnemonic, _ | e2⟩
        · rcases h3 : env.Split (env.EntropyFromMnemonic mnemonic).1.bytes numShares threshold
            with ⟨shards, _ | e3⟩
          · right
            refine ⟨mnemonic, numShares, threshold, shards, rfl, h3, ?_, ?_⟩
            · simp only [split.Run, h0, h1, if_neg hgt, h3]
              rfl
            · simp only [split.Run, h0, h1, if_neg hgt, h3]
          · left
            simp only [split.Run, h0, h1, if_neg hgt, h3]
            exact ⟨rfl, _, rfl, by simp⟩
        · left
          simp only [split.Run, h0, h1, if_neg hgt]
          exact ⟨rfl, _, rfl, by simp⟩
    · left
      simp only [split.Run, h0, h1]
      exact ⟨rfl, _, rfl, by simp⟩
  · left
    simp only [split.Run, h0]
    exact ⟨rfl, _, rfl, by simp⟩

/-! ## The events of `split` -/

theorem split.encodeLoop_events (env : Env) (fuel : Nat) (shard : Slice) (j : Nat)
    (acc : List Str) :
    ∀ e ∈ (split.encodeLoop env fuel shard j acc).1, ∃ chunk, e = Event.NewMnemonic chunk := by
  induction fuel generalizing shard j acc with
  | zero => simp [split.encodeLoop]
  | succ n ih =>
    unfold split.encodeLoop
    split_ifs with hj
    · simp only
      rcases hn : env.NewMnemonic (split.frame shard j).1.bytes with ⟨m, _ | err⟩
      · simp only
        intro e he
        rcases List.mem_cons.1 he with rfl | he
        · exact ⟨_, rfl⟩
        · exact ih _ _ _ e he
      · simp only
        intro e he
        rw [List.mem_singleton] at he
        exact ⟨_, he⟩
    · simp

theorem split.printLoop_events (env : Env) (shards : List Slice) :
    ∀ e ∈ (split.printLoop env shards).1,
      (∃ chunk, e = Event.NewMnemonic chunk) ∨ ∃ text, e = Event.stdout text := by
  induction shards with
  | nil => simp [split.printLoop]
  | cons s rest ih =>
    have henc := split.encodeLoop_events env s.len s 0 []
    unfold split.printLoop split.encodeShard
    rcases hl : split.encodeLoop env s.len s 0 [] with ⟨t, f | ms⟩
    · rw [hl] at henc
      simp only
      intro e he
      exact Or.inl (henc e he)
    · rw [hl] at henc
      simp only
      intro e he
      rcases List.mem_append.1 he with he | he
      · exact Or.inl (henc e he)
      · rcases List.mem_cons.1 he with rfl | he
        · exact Or.inr ⟨_, rfl⟩
        · exact ih e he

theorem split.Run_library_calls_first (env : Env) (arg0 arg1 : Str)
    (stdin : Str × Option GoError) (before rest : List Event) (e : Event)
    (htrace : (split.Run env arg0 arg1 stdin).trace = before ++ e :: rest)
    (he : (∃ m, e = Event.EntropyFromMnemonic m) ∨
      ∃ secret parts threshold, e = Event.Split secret parts threshold) :
    written before = [] := by
  have hshape : (split.Run env arg0 arg1 stdin).trace = [] ∨
      ∃ m secret parts threshold t, (split.Run env arg0 arg1 stdin).trace =
        Event.EntropyFromMnemonic m :: Event.Split secret parts threshold :: t ∧
        ∀ x ∈ t, (∃ chunk, x = Event.NewMnemonic chunk) ∨ ∃ text, x = Event.stdout text := by
    rcases h0 : env.Atoi arg0 with ⟨threshold, _ | e0⟩
    · rcases h1 : env.Atoi arg1 with ⟨numShares, _ | e1⟩
      · by_cases hgt : threshold > numShares
        · simp [split.Run, h0, h1, hgt]
        · rcases stdin with ⟨mnemonic, _ | e2⟩
          · rcases h3 : env.Split (env.EntropyFromMnemonic mnemonic).1.bytes numShares threshold
              with ⟨shards, _ | e3⟩
            · right
              refine ⟨mnemonic, (env.EntropyFromMnemonic mnemonic).1.bytes, numShares, threshold,
                (split.printLoop env shards).1, ?_,
                split.printLoop_events env shards⟩
              simp only [split.Run, h0, h1, if_neg hgt, h3]
            · right
              refine ⟨mnemonic, (env.EntropyFromMnemonic mnemonic).1.bytes, numShares, threshold, [],
                ?_, by simp⟩
              simp only [split.Run, h0, h1, if_neg hgt, h3]
          · simp [split.Run, h0, h1, hgt]
      · simp [split.Run, h0, h1]
    · simp [split.Run, h0]
  rcases hshape with h | ⟨m, secret, parts, threshold, t, h, ht⟩
  · rw [h] at htrace
    cases before <;> cases htrace
  · rw [h] at htrace
    rcases before with _ | ⟨b0, _ | ⟨b1, bs⟩⟩
    · rfl
    · simp only [List.cons_append, List.nil_append, List.cons.injEq] at htrace
      rw [← htrace.1]
      rfl
    · simp only [List.cons_append, List.cons.injEq] at htrace
      have hmem : e ∈ t := by
        rw [htrace.2.2]
        simp
      rcases ht e hmem with ⟨c, hc⟩ | ⟨s, hs⟩ <;>
        rcases he with ⟨m', hm⟩ | ⟨a, b, c', hsp⟩ <;> simp_all

/-! ## The line loop of `assemble` -/

theorem assemble.linesLoop_blank (env : Env) (ignored : List Str) (i : Nat)
    (acc : List (List Nat)) : assemble.linesLoop env ([] :: ignored) i acc = ([], .ok acc) := by
  simp [assemble.linesLoop]

theorem assemble.linesLoop_append_blank (env : Env) (pre : List Str) (hpre : ∀ l ∈ pre, l ≠ [])
    (ignored : List Str) (i : Nat) (acc : List (List Nat)) :
    assemble.linesLoop env (pre ++ [] :: ignored) i acc = assemble.linesLoop env pre i acc := by
  induction pre generalizing i acc with
  | nil => rw [List.nil_append, assemble.linesLoop_blank]; rfl
  | cons l rest ih =>
    have hl := hpre l (List.mem_cons_self _ _)
    have hrest : ∀ x ∈ rest, x ≠ [] := fun x hx => hpre x (List.mem_cons_of_mem _ hx)
    rcases he : assemble.decodeLine env i l with ⟨t, f | shard⟩
    · rw [List.cons_append, assemble.linesLoop_cons_err _ _ _ _ _ hl _ _ he,
        assemble.linesLoop_cons_err _ _ _ _ _ hl _ _ he]
    · rw [List.cons_append, assemble.linesLoop_cons_ok _ _ _ _ _ hl _ _ he,
        assemble.linesLoop_cons_ok _ _ _ _ _ hl _ _ he, ih hrest]

theorem assemble.linesLoop_results (env : Env) (pre : List Str) (hpre : ∀ l ∈ pre, l ≠ [])
    (i : Nat) (acc : List (List Nat)) (results : List (List Event × List Nat))
    (h : List.Forall₂ (fun (p : Nat × Str) (r : List Event × List Nat) =>
      assemble.decodeLine env p.1 p.2 = (r.1, .ok r.2)) (pre.enumFrom i) results) :
    assemble.linesLoop env pre i acc =
      ((results.map Prod.fst).flatten, .ok (acc ++ results.map Prod.snd)) := by
  induction pre generalizing i acc results with
  | nil =>
    cases h
    simp [assemble.linesLoop]
  | cons l rest ih =>
    have hl := hpre l (List.mem_cons_self _ _)
    have hrest : ∀ x ∈ rest, x ≠ [] := fun x hx => hpre x (List.mem_cons_of_mem _ hx)
    rw [List.enumFrom_cons] at h
    cases h with
    | cons hr htail =>
      rename_i r rs
      rw [assemble.linesLoop_cons_ok _ _ _ _ _ hl _ _ hr, ih hrest _ _ _ htail]
      simp

theorem assemble.linesLoop_error (env : Env) (pre : List Str) (hpre : ∀ l ∈ pre, l ≠ [])
    (i : Nat) (acc : List (List Nat)) (f : Failure)
    (h : (assemble.linesLoop env pre i acc).2 = .error f) :
    ∃ (k : Nat) (l : Str), pre[k]? = some l ∧ (assemble.decodeLine env (i + k) l).2 = .error f := by
  induction pre generalizing i acc with
  | nil => simp [assemble.linesLoop] at h
  | cons l rest ih =>
    have hl := hpre l (List.mem_cons_self _ _)
    have hrest : ∀ x ∈ rest, x ≠ [] := fun x hx => hpre x (List.mem_cons_of_mem _ hx)
    rcases he : assemble.decodeLine env i l with ⟨t, g | shard⟩
    · rw [assemble.linesLoop_cons_err _ _ _ _ _ hl _ _ he] at h
      simp only [Except.error.injEq] at h
      subst h
      exact ⟨0, l, by simp, by rw [Nat.add_zero, he]⟩
    · rw [assemble.linesLoop_cons_ok _ _ _ _ _ hl _ _ he] at h
      obtain ⟨k, x, hk, hx⟩ := ih hrest _ _ h
      have e : i + (k + 1) = i + 1 + k := by omega
      exact ⟨k + 1, x, by simpa using hk, by rw [e]; exact hx⟩

theorem lines_before_blank (lines : List Str) :
    (∀ l ∈ lines.takeWhile (fun l => decide (l ≠ [])), l ≠ []) ∧
    (lines = lines.takeWhile (fun l => decide (l ≠ [])) ∨
      ∃ ignored, lines = lines.takeWhile (fun l => decide (l ≠ [])) ++ [] :: ignored) := by
  refine ⟨fun l hl => by simpa using List.mem_takeWhile_imp hl, ?_⟩
  have happ := List.takeWhile_append_dropWhile (fun l => decide (l ≠ [])) lines
  rcases hd : lines.dropWhile (fun l => decide (l ≠ [])) with _ | ⟨x, rest⟩
  · left
    rw [hd, List.append_nil] at happ
    exact happ.symm
  · right
    have hnot := List.head?_dropWhile_not (fun l => decide (l ≠ [])) lines
    rw [hd] at hnot happ
    simp only [List.head?_cons, ne_eq, decide_not, Bool.not_eq_false', decide_eq_true_eq] at hnot
    subst hnot
    exact ⟨rest, happ.symm⟩

theorem assemble.linesLoop_before_blank (env : Env) (lines : List Str) (i : Nat)
    (acc : List (List Nat)) :
    assemble.linesLoop env lines i acc =
      assemble.linesLoop env (lines.takeWhile (fun l => decide (l ≠ []))) i acc := by
  obtain ⟨hne, h | ⟨ignored, h⟩⟩ := lines_before_blank lines
  · rw [← h]
  · conv_lhs => rw [h]
    exact assemble.linesLoop_append_blank env _ hne ignored i acc

theorem assemble.Run_of_linesLoop_ok (env : Env) (input : Str) (t : List Event)
    (shares : List (List Nat))
    (h : assemble.linesLoop env (strings.Split input 10) 0 [] = (t, .ok shares)) :
    (∃ rest, (assemble.Run env (input, none)).trace = t ++ Event.Combine shares :: rest) ∧
    ∀ f, (assemble.Run env (input, none)).failure = some f →
      (∃ err, f = .fatalCombine err) ∨ (∃ err, f = .fatalConvert err) := by
  rcases hc : env.Combine shares with ⟨entropy, _ | e1⟩
  · rcases hn : env.NewMnemonic entropy with ⟨m, _ | e2⟩
    · simp only [assemble.Run, h, hc, hn]
      exact ⟨⟨_, rfl⟩, by simp⟩
    · simp only [assemble.Run, h, hc, hn]
      exact ⟨⟨_, rfl⟩, fun f hf => Or.inr ⟨e2, by simpa using hf.symm⟩⟩
  · simp only [assemble.Run, h, hc]
    exact ⟨⟨_, rfl⟩, fun f hf => Or.inl ⟨e1, by simpa using hf.symm⟩⟩

/-! ## Splitting at single spaces -/

theorem strings.Split_length (s : Str) (sep : Nat) :
    (strings.Split s sep).length = s.count sep + 1 := by
  induction s with
  | nil => rfl
  | cons c cs ih =>
    simp only [strings.Split]
    by_cases h : c = sep
    · rw [if_pos h, List.length_cons, ih, h, List.count_cons_self]
    · rw [if_neg h, List.count_cons_of_ne (fun e => h e.symm)]
      rcases hs : strings.Split cs sep with _ | ⟨w, ws⟩
      · exact absurd hs (strings.Split_ne_nil cs sep)
      · rw [hs] at ih
        simpa using ih

theorem strings.Join_Split (s : Str) (sep : Nat) :
    strings.Join (strings.Split s sep) sep = s := by
  induction s with
  | nil => rfl
  | cons c cs ih =>
    simp only [strings.Split]
    by_cases h : c = sep
    · rw [if_pos h, strings.Join_cons _ _ _ (strings.Split_ne_nil cs sep), ih, h]
      rfl
    · rw [if_neg h]
      rcases hs : strings.Split cs sep with _ | ⟨w, ws⟩
      · exact absurd hs (strings.Split_ne_nil cs sep)
      · rw [hs] at ih
        cases ws with
        | nil =>
          simp only [strings.Join] at ih ⊢
          rw [ih]
        | cons v vs =>
          simp only [strings.Join] at ih ⊢
          rw [← ih]
          rfl

theorem strings.Split_sep_free (s : Str) (sep : Nat) : ∀ w ∈ strings.Split s sep, sep ∉ w := by
  induction s with
  | nil => simp [strings.Split]
  | cons c cs ih =>
    simp only [strings.Split]
    by_cases h : c = sep
    · rw [if_pos h]
      intro w hw
      rcases List.mem_cons.1 hw with rfl | hw
      · simp
      · exact ih w hw
    · rw [if_neg h]
      rcases hs : strings.Split cs sep with _ | ⟨w, ws⟩
      · exact absurd hs (strings.Split_ne_nil cs sep)
      · rw [hs] at ih
        intro x hx
        rcases List.mem_cons.1 hx with rfl | hx
        · simp only [List.mem_cons, not_or]
          exact ⟨fun e => h e.symm, ih w (List.mem_cons_self _ _)⟩
        · exact ih x (List.mem_cons_of_mem _ hx)

theorem assemble.decodeLine_malformed (env : Env) (i : Nat) (mnemonic : Str)
    (h : (strings.Split mnemonic 32).length % 15 ≠ 0) :
    ∃ f, (assemble.decodeLine env i mnemonic).2 = .error f :=
  assemble.decodeLoop_malformed env i _ h _ 0 [] rfl (Nat.zero_le _) (by omega)

theorem strings.Join_snoc_byte (ws : List Str) (hne : ws ≠ []) (sep x : Nat) :
    strings.Join ws sep ++ [x] = strings.Join (ws.dropLast ++ [ws.getLast hne ++ [x]]) sep := by
  by_cases hd : ws.dropLast = []
  · have hw : ws = [ws.getLast hne] := by
      conv_lhs => rw [← List.dropLast_append_getLast hne, hd]
      rfl
    rw [hd, List.nil_append]
    conv_lhs => rw [hw]
    rfl
  · rw [strings.Join_append _ _ _ hd (by simp)]
    conv_lhs => rw [← List.dropLast_append_getLast hne]
    rw [strings.Join_append _ _ _ hd (by simp)]
    simp [strings.Join]

theorem strings.count_Join (ws : List Str) (sep : Nat) (hne : ws ≠ [])
    (hfree : ∀ w ∈ ws, sep ∉ w) : (strings.Join ws sep).count sep + 1 = ws.length := by
  rw [← strings.Split_length, strings.Split_Join ws sep hne hfree]

/-! ## A word group that the decoder rejects -/

theorem assemble.decodeLoop_rejected (env : Env) (i : Nat) (ws : List Str)
    (hcount : ws.length % 15 = 0) (g : Nat) (hg : 15 * g < ws.length) (chunk : Slice)
    (err : GoError)
    (hrej : env.EntropyFromMnemonic (strings.Join ((ws.drop (15 * g)).take 15) 32) =
      (chunk, some err))
    (fuel j : Nat) (shard : List Nat) (hj15 : j % 15 = 0) (hjg : j ≤ 15 * g)
    (hfuel : ws.length - j ≤ fuel) :
    ∃ f, (assemble.decodeLoop env i ws fuel j shard).2 = .error f := by
  induction fuel generalizing j shard with
  | zero => omega
  | succ n ih =>
    have hj : j < ws.length := by omega
    have hb : ¬ j + 15 > ws.length := by omega
    by_cases hjeq : j = 15 * g
    · subst hjeq
      rw [assemble.decodeLoop_reject env i ws n _ shard hj hb chunk err hrej]
      exact ⟨_, rfl⟩
    · rcases assemble.decodeLoop_cases env i ws n j shard hj hb with ⟨f, h⟩ | ⟨bytes, h⟩
      · rw [h]
        exact ⟨f, rfl⟩
      · rw [h]
        exact ih (j + 15) _ (by omega) (by omega) (by omega)

theorem assemble.decodeLoop_first_rejected (env : Env) (i : Nat) (ws : List Str)
    (hcount : ws.length % 15 = 0) (g : Nat) (hg : 15 * g < ws.length) (chunk : Slice)
    (err : GoError)
    (hrej : env.EntropyFromMnemonic (strings.Join ((ws.drop (15 * g)).take 15) 32) =
      (chunk, some err))
    (hok : ∀ h, h < g → ∃ (c : Slice) (bytes : List Nat),
      env.EntropyFromMnemonic (strings.Join ((ws.drop (15 * h)).take 15) 32) = (c, none) ∧
      assemble.payload c = .ok bytes)
    (fuel h : Nat) (shard : List Nat) (hhg : h ≤ g) (hfuel : ws.length - 15 * h ≤ fuel) :
    (assemble.decodeLoop env i ws fuel (15 * h) shard).2 = .error (.fatalChunk (15 * g) i err) := by
  induction fuel generalizing h shard with
  | zero => omega
  | succ n ih =>
    have hj : 15 * h < ws.length := by omega
    have hb : ¬ 15 * h + 15 > ws.length := by omega
    by_cases hjeq : h = g
    · subst hjeq
      rw [assemble.decodeLoop_reject env i ws n _ shard hj hb chunk err hrej]
    · obtain ⟨c, bytes, hd, hp⟩ := hok h (by omega)
      rw [assemble.decodeLoop_step env i ws n _ shard hj hb c hd bytes hp]
      have e : 15 * h + 15 = 15 * (h + 1) := by ring
      rw [e]
      exact ih (h + 1) _ (by omega) (by omega)

/-! ## The claims, continued -/

/-- C11. Scheme validation. When the two arguments parse to the integers N and M: if
N > M the run of `split` ends with the failure of line 46 and with no event at all,
whatever standard input holds, so the secret is not decoded, the sharing library is not
called and nothing is printed; if N <= M (N = M included) the run does not end with that
failure, and once standard input is read it decodes the secret and calls the sharing
library with M parts and threshold N. -/
theorem scheme_validation (env : Env) (arg0 arg1 : Str) (N M : Int)
    (hN : env.Atoi arg0 = (N, none)) (hM : env.Atoi arg1 = (M, none)) :
    (N > M → ∀ stdin : Str × Option GoError,
      split.Run env arg0 arg1 stdin = ⟨[], some .fatalScheme⟩) ∧
    (N ≤ M → ∀ mnemonic : Str,
      (split.Run env arg0 arg1 (mnemonic, none)).failure ≠ some .fatalScheme ∧
      ∃ t, (split.Run env arg0 arg1 (mnemonic, none)).trace =
        Event.EntropyFromMnemonic mnemonic ::
          Event.Split (env.EntropyFromMnemonic mnemonic).1.bytes M N :: t) := by
  refine ⟨?_, ?_⟩
  · intro hgt stdin
    simp only [split.Run, hN, hM]
    rw [if_pos hgt]
  · intro hle mnemonic
    have hng : ¬ N > M := by omega
    rcases h3 : env.Split (env.EntropyFromMnemonic mnemonic).1.bytes M N with ⟨shards, _ | e3⟩
    · simp only [split.Run, hN, hM, if_neg hng, h3]
      refine ⟨?_, _, rfl⟩
      intro hf
      obtain ⟨err, herr⟩ := split.printLoop_failure env shards _ hf
      cases herr
    · simp only [split.Run, hN, hM, if_neg hng, h3]
      exact ⟨by simp, [], rfl⟩

/-- The theorem of C11 at the toy libraries: with the arguments `3` and `2` the run ends at
line 46 with no event, and with the arguments `2` and `2` the secret is decoded and the
sharing library called. -/
theorem scheme_validation_witness :
    split.Run toy.env [51] [50] (toy.mnemonic12, none) = ⟨[], some .fatalScheme⟩ ∧
    (split.Run toy.env [50] [50] (toy.mnemonic12, none)).failure ≠ some .fatalScheme ∧
    ∃ t, (split.Run toy.env [50] [50] (toy.mnemonic12, none)).trace =
      Event.EntropyFromMnemonic toy.mnemonic12 ::
        Event.Split (toy.env.EntropyFromMnemonic toy.mnemonic12).1.bytes 2 2 :: t :=
  ⟨(scheme_validation toy.env [51] [50] 3 2 (by decide) (by decide)).1 (by decide) _,
    ((scheme_validation toy.env [50] [50] 2 2 (by decide) (by decide)).2 (by decide)
      toy.mnemonic12).1,
    ((scheme_validation toy.env [50] [50] 2 2 (by decide) (by decide)).2 (by decide)
      toy.mnemonic12).2⟩

/-- C12. All-or-nothing output. Let the sharing library return shares that are slices
within arrays of bytes, and let the mnemonic encoder accept every chunk of 20 bytes.
Then in every run of `split` that fails, whatever the step (argument parsing, scheme
validation, reading the input, the sharing library, the encoding of a chunk), and in
every run of `assemble` that fails (reading the input, the decoding of a word group of
any line, a slice expression, `Combine`, the final encoding), nothing has been written
to standard output. In `split`, nothing has been written either at the call of the
decoder of the secret or of the sharing library, so an error of the decoder, which
line 58 overwrites, is met with no output. -/
theorem all_or_nothing_output (env : Env)
    (hsplit : ∀ mnemonic parts threshold,
      ∀ s ∈ (env.Split (env.EntropyFromMnemonic mnemonic).1.bytes parts threshold).1,
        s.WF ∧ IsBytes s.arr)
    (hacc : ∀ chunk : List Nat, chunk.length = 20 → IsBytes chunk →
      (env.NewMnemonic chunk).2 = none) :
    (∀ (arg0 arg1 : Str) (stdin : Str × Option GoError) (f : Failure),
      (split.Run env arg0 arg1 stdin).failure = some f →
      written (split.Run env arg0 arg1 stdin).trace = []) ∧
    (∀ (stdin : Str × Option GoError) (f : Failure),
      (assemble.Run env stdin).failure = some f → written (assemble.Run env stdin).trace = []) ∧
    (∀ (arg0 arg1 : Str) (stdin : Str × Option GoError) (before rest : List Event) (e : Event),
      (split.Run env arg0 arg1 stdin).trace = before ++ e :: rest →
      ((∃ m, e = Event.EntropyFromMnemonic m) ∨
        ∃ secret parts threshold, e = Event.Split secret parts threshold) →
      written before = []) := by
  refine ⟨?_, fun stdin f h => assemble.Run_failure_written env stdin f h,
    fun arg0 arg1 stdin before rest e h he =>
      split.Run_library_calls_first env arg0 arg1 stdin before rest e h he⟩
  intro arg0 arg1 stdin f hf
  rcases split.Run_cases env arg0 arg1 stdin with ⟨hw, _⟩ | ⟨m, n, t, shards, _, _, _, hfl⟩
  · exact hw
  · obtain ⟨err, herr⟩ := split.printLoop_failure env shards f (by rw [← hfl]; exact hf)
    rw [herr] at hf
    exact absurd hf (split.Run_never_panics_on_encode env hsplit hacc arg0 arg1 stdin err)

/-- The theorem of C12 at the toy libraries, which meet both assumptions: no failing
run of `split` or of `assemble` has written anything, among them `split 2 3` on the
input `foo` and `assemble` on the line `line16`. -/
theorem all_or_nothing_output_witness :
    (∀ (arg0 arg1 : Str) (stdin : Str × Option GoError) (f : Failure),
      (split.Run toy.env arg0 arg1 stdin).failure = some f →
      written (split.Run toy.env arg0 arg1 stdin).trace = []) ∧
    (∀ (stdin : Str × Option GoError) (f : Failure),
      (assemble.Run toy.env stdin).failure = some f →
      written (assemble.Run toy.env stdin).trace = []) ∧
    written (split.Run toy.env [50] [51] ([102, 111, 111], none)).trace = [] ∧
    written (assemble.Run toy.env (unlines [toy.line16], none)).trace = [] :=
  have h := all_or_nothing_output toy.env
    (fun mnemonic parts threshold =>
      toy.Split_shares _ (toy.EntropyFromMnemonic_IsBytes mnemonic) parts threshold)
    (fun chunk h20 _ => by
      show (toy.NewMnemonic chunk).2 = none
      rw [toy.NewMnemonic_chunk chunk h20])
  ⟨h.1, h.2.1,
    h.1 [50] [51] ([102, 111, 111], none) (.fatalSplit "cannot split an empty secret")
      (by decide),
    h.2.1 (unlines [toy.line16], none) .panicSliceBounds (by decide)⟩

/-- C13. Blank-line terminator. Let `lines` be the lines of the input and `before` the
lines that precede the first empty one (all of them when none is empty). The loop of
lines 107-125 gives on `lines` what it gives on `before`, whatever follows the empty
line. When every line of `before` decodes, the decoder calls are those of these lines
in input order and the shares are passed to `Combine` in that order. A failure of the
run is the failure of decoding one of the lines of `before`, or a failure of lines 129
or 134: the empty line is never the cause. -/
theorem blank_line_terminator (env : Env) (input : Str) (lines before : List Str)
    (hlines : lines = strings.Split input 10)
    (hbefore : before = lines.takeWhile (fun l => decide (l ≠ []))) :
    (∀ l ∈ before, l ≠ []) ∧
    (lines = before ∨ ∃ ignored, lines = before ++ [] :: ignored) ∧
    (∀ ignored : List Str,
      assemble.linesLoop env (before ++ [] :: ignored) 0 [] =
        assemble.linesLoop env before 0 []) ∧
    assemble.linesLoop env lines 0 [] = assemble.linesLoop env before 0 [] ∧
    (∀ results : List (List Event × List Nat),
      List.Forall₂ (fun (p : Nat × Str) (r : List Event × List Nat) =>
        assemble.decodeLine env p.1 p.2 = (r.1, .ok r.2)) before.enum results →
      assemble.linesLoop env lines 0 [] =
        ((results.map Prod.fst).flatten, .ok (results.map Prod.snd)) ∧
      ∃ rest, (assemble.Run env (input, none)).trace =
        (results.map Prod.fst).flatten ++ Event.Combine (results.map Prod.snd) :: rest) ∧
    (∀ f, (assemble.Run env (input, none)).failure = some f →
      (∃ (k : Nat) (l : Str), before[k]? = some l ∧
        (assemble.decodeLine env k l).2 = .error f) ∨
      (∃ err, f = .fatalCombine err) ∨ (∃ err, f = .fatalConvert err)) := by
  subst hbefore
  obtain ⟨hne, hshape⟩ := lines_before_blank lines
  have hloop := assemble.linesLoop_before_blank env lines 0 []
  refine ⟨hne, hshape, fun ignored => assemble.linesLoop_append_blank env _ hne ignored 0 [],
    hloop, ?_, ?_⟩
  · intro results hres
    have hr := assemble.linesLoop_results env _ hne 0 [] results hres
    rw [List.nil_append] at hr
    rw [hloop]
    refine ⟨hr, ?_⟩
    rw [← hloop, hlines] at hr
    exact (assemble.Run_of_linesLoop_ok env input _ _ hr).1
  · intro f hf
    rcases hl : assemble.linesLoop env (strings.Split input 10) 0 [] with ⟨t, g | shares⟩
    · have hrun := assemble.Run_of_linesLoop_error env input g (by rw [hl])
      rw [hrun] at hf
      simp only [Option.some.injEq] at hf
      subst hf
      have herr : (assemble.linesLoop env
          (lines.takeWhile (fun l => decide (l ≠ []))) 0 []).2 = .error g := by
        rw [← hloop, hlines, hl]
      obtain ⟨k, l, hk, hd⟩ := assemble.linesLoop_error env _ hne 0 [] g herr
      rw [Nat.zero_add] at hd
      exact Or.inl ⟨k, l, hk, hd⟩
    · exact Or.inr ((assemble.Run_of_linesLoop_ok env input _ _ hl).2 f hf)

/-- The theorem of C13 at the toy libraries and the four lines of `inputWithBlank`. -/
theorem blank_line_terminator_witness :
    (assemble.Run toy.env (toy.inputWithBlank, none)).failure = none ∧
    written (assemble.Run toy.env (toy.inputWithBlank, none)).trace = toy.mnemonic12 ++ [10] ∧
    assemble.linesLoop toy.env (strings.Split toy.inputWithBlank 10) 0 [] =
      assemble.linesLoop toy.env
        ((strings.Split toy.inputWithBlank 10).takeWhile (fun l => decide (l ≠ []))) 0 [] :=
  ⟨by decide, by decide,
    (blank_line_terminator toy.env toy.inputWithBlank _ _ rfl rfl).2.2.2.1⟩

/-- C14, as stated, fails: `line15` is a well-formed line of 15 words and decodes to a
share of 16 bytes, but the same line followed by one space is split into 16 words, the
last one empty, and `assemble` fails on it with a slice-bounds panic after decoding the
first 15 words. -/
theorem trailing_space_breaks_the_line :
    assemble.decodeLine toy.env 0 toy.line15 =
        ([.EntropyFromMnemonic toy.line15], .ok (List.replicate 16 7)) ∧
      (strings.Split toy.line15 32).length = 15 ∧
      (strings.Split (toy.line15 ++ [32]) 32).length = 16 ∧
      assemble.decodeLine toy.env 0 (toy.line15 ++ [32]) =
        ([.EntropyFromMnemonic toy.line15], .error .panicSliceBounds) := by
  decide

/-- C14, amended. `assemble` splits a line at every single space byte and nowhere else:
the pieces are one more than the spaces, none holds a space, and joined by single spaces
they give the line back. For a well-formed line, 15k space-free words joined by single
spaces, the pieces are the words. The same words with one more space, trailing, leading
or doubled between two words, give one more piece, an empty one; with another byte (a
tab, say) in place of the space between two words they give one piece fewer; in all
these cases the count is no multiple of 15 and the line fails whatever the libraries.
A byte other than a space appended to the line (a carriage return, say) stays in the
last word. -/
theorem single_space_splitting (env : Env) (ws : List Str) (hne : ws ≠ [])
    (hfree : ∀ w ∈ ws, 32 ∉ w) (h15 : ws.length % 15 = 0) :
    (∀ s : Str, (strings.Split s 32).length = s.count 32 + 1 ∧
      strings.Join (strings.Split s 32) 32 = s ∧ ∀ w ∈ strings.Split s 32, 32 ∉ w) ∧
    strings.Split (strings.Join ws 32) 32 = ws ∧
    (strings.Split (strings.Join ws 32 ++ [32]) 32 = ws ++ [[]] ∧
      ∀ i, ∃ f, (assemble.decodeLine env i (strings.Join ws 32 ++ [32])).2 = .error f) ∧
    (strings.Split (32 :: strings.Join ws 32) 32 = [] :: ws ∧
      ∀ i, ∃ f, (assemble.decodeLine env i (32 :: strings.Join ws 32)).2 = .error f) ∧
    (∀ a b : List Str, ws = a ++ b → a ≠ [] → b ≠ [] →
      strings.Split (strings.Join a 32 ++ 32 :: 32 :: strings.Join b 32) 32 = a ++ [] :: b ∧
      ∀ i, ∃ f, (assemble.decodeLine env i
        (strings.Join a 32 ++ 32 :: 32 :: strings.Join b 32)).2 = .error f) ∧
    (∀ x : Nat, x ≠ 32 → ∀ a b : List Str, ws = a ++ b → a ≠ [] → b ≠ [] →
      (strings.Split (strings.Join a 32 ++ x :: strings.Join b 32) 32).length = ws.length - 1 ∧
      ∀ i, ∃ f, (assemble.decodeLine env i
        (strings.Join a 32 ++ x :: strings.Join b 32)).2 = .error f) ∧
    (∀ x : Nat, x ≠ 32 →
      strings.Split (strings.Join ws 32 ++ [x]) 32 = ws.dropLast ++ [ws.getLast hne ++ [x]]) := by
  have hpos : 0 < ws.length := List.length_pos.2 hne
  refine ⟨fun s => ⟨strings.Split_length s 32, strings.Join_Split s 32,
    strings.Split_sep_free s 32⟩, strings.Split_Join ws 32 hne hfree, ?_, ?_, ?_, ?_, ?_⟩
  · have hs : strings.Split (strings.Join ws 32 ++ [32]) 32 = ws ++ [[]] := by
      have e : strings.Join ws 32 ++ [32] = strings.Join (ws ++ [[]]) 32 := by
        rw [strings.Join_append _ _ _ hne (by simp)]
        rfl
      rw [e, strings.Split_Join _ 32 (by simp)]
      intro w hw
      rcases List.mem_append.1 hw with h | h
      · exact hfree w h
      · simp only [List.mem_singleton] at h
        subst h
        simp
    refine ⟨hs, fun i => assemble.decodeLine_malformed env i _ ?_⟩
    rw [hs, List.length_append, List.length_singleton]
    omega
  · have hs : strings.Split (32 :: strings.Join ws 32) 32 = [] :: ws := by
      have e : 32 :: strings.Join ws 32 = strings.Join ([] :: ws) 32 := by
        rw [strings.Join_cons _ _ _ hne]
        rfl
      rw [e, strings.Split_Join _ 32 (by simp)]
      intro w hw
      rcases List.mem_cons.1 hw with h | h
      · subst h
        simp
      · exact hfree w h
    refine ⟨hs, fun i => assemble.decodeLine_malformed env i _ ?_⟩
    rw [hs, List.length_cons]
    omega
  · intro a b hab ha hb
    have hs : strings.Split (strings.Join a 32 ++ 32 :: 32 :: strings.Join b 32) 32 =
        a ++ [] :: b := by
      have e : strings.Join a 32 ++ 32 :: 32 :: strings.Join b 32 =
          strings.Join (a ++ [] :: b) 32 := by
        rw [strings.Join_append _ _ _ ha (by simp), strings.Join_cons _ _ _ hb]
        rfl
      rw [e, strings.Split_Join _ 32 (by simp)]
      intro w hw
      rcases List.mem_append.1 hw with h | h
      · exact hfree w (by rw [hab]; exact List.mem_append_left _ h)
      · rcases List.mem_cons.1 h with h | h
        · subst h
          simp
        · exact hfree w (by rw [hab]; exact List.mem_append_right _ h)
    refine ⟨hs, fun i => assemble.decodeLine_malformed env i _ ?_⟩
    have hl : ws.length = a.length + b.length := by rw [hab, List.length_append]
    rw [hs, List.length_append, List.length_cons]
    omega
  · intro x hx a b hab ha hb
    have hfa : ∀ w ∈ a, 32 ∉ w := fun w h =>
      hfree w (by rw [hab]; exact List.mem_append_left _ h)
    have hfb : ∀ w ∈ b, 32 ∉ w := fun w h =>
      hfree w (by rw [hab]; exact List.mem_append_right _ h)
    have hca := strings.count_Join a 32 ha hfa
    have hcb := strings.count_Join b 32 hb hfb
    have hl : ws.length = a.length + b.length := by rw [hab, List.length_append]
    have hs : (strings.Split (strings.Join a 32 ++ x :: strings.Join b 32) 32).length =
        ws.length - 1 := by
      rw [strings.Split_length, List.count_append, List.count_cons_of_ne (fun e => hx e.symm)]
      omega
    refine ⟨hs, fun i => assemble.decodeLine_malformed env i _ ?_⟩
    rw [hs]
    omega
  · intro x hx
    rw [strings.Join_snoc_byte ws hne 32 x, strings.Split_Join _ 32 (by simp)]
    intro w hw
    rcases List.mem_append.1 hw with h | h
    · exact hfree w (List.mem_of_mem_dropLast h)
    · simp only [List.mem_singleton] at h
      subst h
      simp only [List.mem_append, List.mem_singleton, not_or]
      exact ⟨hfree _ (List.getLast_mem hne), fun e => hx e.symm⟩

/-- The theorem of C14 amended, at the toy libraries and the 15 words of `line15`. -/
theorem single_space_splitting_witness :
    strings.Split (strings.Join (strings.Split toy.line15 32) 32) 32 =
        strings.Split toy.line15 32 ∧
      ∀ i, ∃ f, (assemble.decodeLine toy.env i
        (strings.Join (strings.Split toy.line15 32) 32 ++ [32])).2 = .error f :=
  have h := single_space_splitting toy.env (strings.Split toy.line15 32) (by decide)
    (by decide) (by decide)
  ⟨h.2.1, h.2.2.1.2⟩

/-- C15, as stated, fails: `line30` has 30 words and the decoder rejects its second
group, but the first group decodes to a chunk whose last byte is 21, so the run ends
with the slice-bounds panic of line 121 before the second group is reached, not with
the error of the decoder. -/
theorem rejected_group_behind_a_panic :
    (strings.Split toy.line30 32).length = 30 ∧
      (toy.env.EntropyFromMnemonic
        (strings.Join (((strings.Split toy.line30 32).drop 15).take 15) 32)).2 =
          some "Invalid mnenomic" ∧
      assemble.decodeLine toy.env 0 toy.line30 =
        ([.EntropyFromMnemonic (strings.Join ((strings.Split toy.line30 32).take 15) 32)],
          .error .panicSliceBounds) ∧
      (assemble.Run toy.env (unlines [toy.line30], none)).failure = some .panicSliceBounds := by
  decide

/-- C15, amended. Let the input have a line that is not empty, comes before any empty
line, has a number of words that is a multiple of 15, and one of whose 15-word groups,
the group `g`, is rejected by the mnemonic decoder. Then `assemble` fails, every event
of the run is a call of the decoder (`Combine` is not called) and nothing is printed.
When every group of the line before `g` decodes to a chunk whose payload is within
bounds, the loop over the line ends with the failure of line 118 carrying the error of
the decoder for `g`, and so does the run when the lines before this one decode. -/
theorem rejected_group_fails (env : Env) (input : Str) (pre post : List Str) (mnemonic : Str)
    (g : Nat) (chunk : Slice) (err : GoError)
    (hlines : strings.Split input 10 = pre ++ mnemonic :: post)
    (hpre : ∀ l ∈ pre, l ≠ []) (hne : mnemonic ≠ [])
    (hcount : (strings.Split mnemonic 32).length % 15 = 0)
    (hg : 15 * g < (strings.Split mnemonic 32).length)
    (hrej : env.EntropyFromMnemonic
      (strings.Join (((strings.Split mnemonic 32).drop (15 * g)).take 15) 32) = (chunk, some err)) :
    (∃ f, (assemble.Run env (input, none)).failure = some f) ∧
    (∀ e ∈ (assemble.Run env (input, none)).trace, ∃ m, e = Event.EntropyFromMnemonic m) ∧
    written (assemble.Run env (input, none)).trace = [] ∧
    (∀ i, ∃ f, (assemble.decodeLine env i mnemonic).2 = .error f) ∧
    ((∀ h, h < g → ∃ (c : Slice) (bytes : List Nat),
        env.EntropyFromMnemonic
          (strings.Join (((strings.Split mnemonic 32).drop (15 * h)).take 15) 32) = (c, none) ∧
        assemble.payload c = .ok bytes) →
      (∀ i, (assemble.decodeLine env i mnemonic).2 = .error (.fatalChunk (15 * g) i err)) ∧
      ((∀ (k : Nat) (l : Str), pre[k]? = some l → ∃ s, (assemble.decodeLine env k l).2 = .ok s) →
        (assemble.Run env (input, none)).failure = some (.fatalChunk (15 * g) pre.length err))) := by
  have hbad : ∀ i, ∃ f, (assemble.decodeLine env i mnemonic).2 = .error f := fun i =>
    assemble.decodeLoop_rejected env i _ hcount g hg chunk err hrej _ 0 [] rfl (Nat.zero_le _)
      (by omega)
  obtain ⟨f, hf⟩ := assemble.linesLoop_malformed env pre post mnemonic hpre hne hbad 0 []
  rw [← hlines] at hf
  have hrun := assemble.Run_of_linesLoop_error env input f hf
  have honly : OnlyDecodes (assemble.Run env (input, none)).trace := by
    rw [hrun]
    exact assemble.linesLoop_OnlyDecodes _ _ _ _
  refine ⟨⟨f, by rw [hrun]⟩, honly, honly.written, hbad, ?_⟩
  intro hok
  have hline : ∀ i, (assemble.decodeLine env i mnemonic).2 =
      .error (.fatalChunk (15 * g) i err) := fun i => by
    have := assemble.decodeLoop_first_rejected env i _ hcount g hg chunk err hrej hok
      (strings.Split mnemonic 32).length 0 [] (Nat.zero_le _) (by omega)
    exact this
  refine ⟨hline, ?_⟩
  intro hlinesok
  have hfirst := assemble.linesLoop_first_error env pre post mnemonic hpre hne 0 [] _
    (fun k l hk => by rw [Nat.zero_add]; exact hlinesok k l hk)
    (by rw [Nat.zero_add]; exact hline pre.length)
  rw [← hlines] at hfirst
  rw [assemble.Run_of_linesLoop_error env input _ hfirst]

/-- The theorem of C15 amended, at the toy libraries and the one line `lineTampered`,
whose first group decodes and whose second group is rejected. -/
theorem rejected_group_fails_witness :
    (∀ e ∈ (assemble.Run toy.env (unlines [toy.lineTampered], none)).trace,
      ∃ m, e = Event.EntropyFromMnemonic m) ∧
    written (assemble.Run toy.env (unlines [toy.lineTampered], none)).trace = [] ∧
    (assemble.Run toy.env (unlines [toy.lineTampered], none)).failure =
      some (.fatalChunk 15 0 "Invalid mnenomic") :=
  have h := rejected_group_fails toy.env (unlines [toy.lineTampered]) [] [[]] toy.lineTampered 1
    ⟨[], 0, 0⟩ "Invalid mnenomic" (by decide) (by decide) (by decide) (by decide) (by decide)
    (by decide)
  have hok : ∀ h, h < 1 → ∃ (c : Slice) (bytes : List Nat),
      toy.env.EntropyFromMnemonic (strings.Join
        (((strings.Split toy.lineTampered 32).drop (15 * h)).take 15) 32) = (c, none) ∧
      assemble.payload c = .ok bytes := fun h hh => by
    have h0 : h = 0 := by omega
    subst h0
    exact ⟨Slice.ofList (List.replicate 16 7 ++ [0, 0, 0, 16]), List.replicate 16 7,
      by decide, by decide⟩
  ⟨h.2.1, h.2.2.1, (h.2.2.2.2 hok).2 (fun k l hk => by simp at hk)⟩

/-- C16. In-place overwrite during encoding. For a shard within its array
(`len <= cap`) and a pass of the chunk loop at offset `j`: when `j + 19 < len`, the
pass writes 19 at index `j + 19` of the array of the shard and changes nothing else,
so that afterwards the shard holds 19 at index `j + 19` and the chunk framed by the
next pass starts with 19, whatever the byte was; when the chunk is the short last one
the bytes of the shard are unchanged; and when `j + 19 = cap` the shard and its array
are unchanged. -/
theorem in_place_overwrite (shard : Slice) (j : Nat) (hWF : shard.WF) :
    (j + 19 < shard.len →
      (split.frame shard j).2.arr = shard.arr.set (shard.off + (j + 19)) 19 ∧
      (split.frame shard j).2.off = shard.off ∧
      (split.frame shard j).2.len = shard.len ∧
      (split.frame shard j).2.bytes = shard.bytes.set (j + 19) 19 ∧
      (split.frame shard j).2.bytes[j + 19]? = some 19 ∧
      (split.frame (split.frame shard j).2 (j + 19)).1.bytes[0]? = some 19) ∧
    (j < shard.len → shard.len < j + 19 → (split.frame shard j).2.bytes = shard.bytes) ∧
    (j + 19 = shard.cap → (split.frame shard j).2 = shard) := by
  have hl := shard.bytes_length hWF
  refine ⟨?_, ?_, ?_⟩
  · intro hj
    have hb := split.frame_overwrites shard j hWF hj
    have hget : (split.frame shard j).2.bytes[j + 19]? = some 19 := by
      rw [hb, List.getElem?_set, if_pos rfl, if_pos (by omega)]
    refine ⟨split.frame_overwrites_arr shard j hWF hj, split.frame_snd_off _ _,
      split.frame_snd_len _ _, hb, hget, ?_⟩
    rw [split.frame_fst_bytes _ _ (split.frame_snd_WF _ _ hWF)
      (by rw [split.frame_snd_len]; exact hj)]
    rw [List.append_assoc, List.getElem?_append_left (by
      rw [List.length_take, List.length_drop, hb, List.length_set]; omega)]
    rw [List.getElem?_take_of_lt (by omega), List.getElem?_drop]
    exact hget
  · intro hj hshort
    exact split.frame_keeps shard j hWF hj (by omega)
  · intro hcap
    exact split.frame_full_capacity shard j hcap

/-- The theorem of C16 at the 33-byte share `1, 2, ..., 33` and offset 0. -/
theorem in_place_overwrite_witness :
    (0 + 19 < (Slice.ofList toy.share33).len →
      (split.frame (Slice.ofList toy.share33) 0).2.arr =
        (Slice.ofList toy.share33).arr.set ((Slice.ofList toy.share33).off + (0 + 19)) 19 ∧
      (split.frame (Slice.ofList toy.share33) 0).2.off = (Slice.ofList toy.share33).off ∧
      (split.frame (Slice.ofList toy.share33) 0).2.len = (Slice.ofList toy.share33).len ∧
      (split.frame (Slice.ofList toy.share33) 0).2.bytes =
        (Slice.ofList toy.share33).bytes.set (0 + 19) 19 ∧
      (split.frame (Slice.ofList toy.share33) 0).2.bytes[0 + 19]? = some 19 ∧
      (split.frame (split.frame (Slice.ofList toy.share33) 0).2 (0 + 19)).1.bytes[0]? =
        some 19) ∧
    (0 < (Slice.ofList toy.share33).len → (Slice.ofList toy.share33).len < 0 + 19 →
      (split.frame (Slice.ofList toy.share33) 0).2.bytes = (Slice.ofList toy.share33).bytes) ∧
    (0 + 19 = (Slice.ofList toy.share33).cap →
      (split.frame (Slice.ofList toy.share33) 0).2 = Slice.ofList toy.share33) :=
  in_place_overwrite (Slice.ofList toy.share33) 0 (by decide)

/-- C17. No empty and no short interior chunks. For a shard within its array that is
not empty, with k = ceil(len / 19) the number of its chunks: k is positive, every chunk
but the last has 19 as its last byte, the last chunk has len - 19 (k - 1) as its last
byte, a number from 1 to 19, and no chunk built by the loop, hence no argument of a
call of the mnemonic encoder, has 0 as its last byte. -/
theorem length_bytes_of_chunks (env : Env) (shard : Slice) (hWF : shard.WF) (hne : 0 < shard.len) :
    (split.chunks shard).length = ⌈(shard.len : ℚ) / 19⌉₊ ∧
    0 < (split.chunks shard).length ∧
    (∀ (i : Nat) (chunk : List Nat), i + 1 < (split.chunks shard).length →
      (split.chunks shard)[i]? = some chunk → chunk[19]? = some 19) ∧
    (∃ chunk : List Nat,
      (split.chunks shard)[(split.chunks shard).length - 1]? = some chunk ∧
      chunk[19]? = some (shard.len - 19 * ((split.chunks shard).length - 1)) ∧
      1 ≤ shard.len - 19 * ((split.chunks shard).length - 1) ∧
      shard.len - 19 * ((split.chunks shard).length - 1) ≤ 19) ∧
    (∀ chunk ∈ split.chunks shard, chunk[19]? ≠ some 0) ∧
    (∀ chunk : List Nat, Event.NewMnemonic chunk ∈ (split.encodeShard env shard).1 →
      chunk[19]? ≠ some 0) := by
  have hk := split.chunks_length shard
  have hlast : ∀ (i : Nat) (chunk : List Nat), (split.chunks shard)[i]? = some chunk →
      19 * i < shard.len ∧ chunk[19]? = some (min 19 (shard.len - 19 * i)) := by
    intro i chunk hc
    obtain ⟨hi, hF⟩ := split.chunks_framed shard hWF i chunk hc
    exact ⟨hi, hF.2.2.1⟩
  have hzero : ∀ chunk ∈ split.chunks shard, chunk[19]? ≠ some 0 := by
    intro chunk hmem
    obtain ⟨i, hi⟩ := List.getElem?_of_mem hmem
    obtain ⟨hlt, hb⟩ := hlast i chunk hi
    rw [hb]
    intro h
    simp only [Option.some.injEq] at h
    omega
  refine ⟨by rw [hk, ceil_div_19], by omega, ?_, ?_, hzero, ?_⟩
  · intro i chunk hi hc
    obtain ⟨_, hb⟩ := hlast i chunk hc
    rw [hb]
    congr 1
    omega
  · have hidx : (split.chunks shard).length - 1 < (split.chunks shard).length := by omega
    refine ⟨(split.chunks shard)[(split.chunks shard).length - 1], ?_, ?_, ?_, ?_⟩
    · exact List.getElem?_eq_getElem hidx
    · obtain ⟨_, hb⟩ := hlast _ _ (List.getElem?_eq_getElem hidx)
      rw [hb]
      congr 1
      omega
    · omega
    · omega
  · intro chunk hmem
    have hsub := (split.encodeShard_trace_initial env shard).subset hmem
    apply hzero
    simpa using hsub

/-- The theorem of C17 at the toy libraries and the 33-byte share `1, 2, ..., 33`. -/
theorem length_bytes_of_chunks_witness :
    (split.chunks (Slice.ofList toy.share33)).length = 2 ∧
    (∀ chunk ∈ split.chunks (Slice.ofList toy.share33), chunk[19]? ≠ some 0) ∧
    (∀ chunk : List Nat,
      Event.NewMnemonic chunk ∈ (split.encodeShard toy.env (Slice.ofList toy.share33)).1 →
      chunk[19]? ≠ some 0) :=
  have h := length_bytes_of_chunks toy.env (Slice.ofList toy.share33) (by decide) (by decide)
  ⟨by decide, h.2.2.2.2.1, h.2.2.2.2.2⟩

/-- C18. Length byte 20 is accepted by the decoder. Let the mnemonic decoder return,
for the word group at `j`, a chunk of 20 bytes within its array. When the last byte of
the chunk is 20, the slice expression of line 121 succeeds and yields all 20 bytes of
the chunk, the length byte included, and the loop goes on with these 20 bytes appended
to the shard. When the last byte is L <= 19, the payload is the first L bytes, and any
other 20-byte chunk with the same last byte and the same first L bytes, whatever its
bytes at L..18, has the same payload. -/
theorem length_byte_20_and_padding (env : Env) (i : Nat) (mnemonicWords : List Str)
    (fuel j : Nat) (shard : List Nat) (chunk : Slice)
    (hj : j + 15 ≤ mnemonicWords.length)
    (hd : env.EntropyFromMnemonic (strings.Join ((mnemonicWords.drop j).take 15) 32) =
      (chunk, none))
    (hWF : chunk.WF) (hlen : chunk.len = 20) :
    (chunk.bytes[19]? = some 20 →
      chunk.bytes.length = 20 ∧
      assemble.payload chunk = .ok chunk.bytes ∧
      assemble.decodeLoop env i mnemonicWords (fuel + 1) j shard =
        (Event.EntropyFromMnemonic (strings.Join ((mnemonicWords.drop j).take 15) 32) ::
            (assemble.decodeLoop env i mnemonicWords fuel (j + 15) (shard ++ chunk.bytes)).1,
          (assemble.decodeLoop env i mnemonicWords fuel (j + 15) (shard ++ chunk.bytes)).2)) ∧
    (∀ L : Nat, L ≤ 19 → chunk.bytes[19]? = some L →
      assemble.payload chunk = .ok (chunk.bytes.take L) ∧
      ∀ other : Slice, other.WF → other.len = 20 → other.bytes[19]? = some L →
        other.bytes.take L = chunk.bytes.take L →
        assemble.payload other = assemble.payload chunk) := by
  have hl := chunk.bytes_length hWF
  refine ⟨?_, ?_⟩
  · intro h20
    have hp : assemble.payload chunk = .ok chunk.bytes := by
      rw [assemble.payload_take chunk hWF hlen 20 h20 (le_refl _),
        List.take_of_length_le (by omega)]
    exact ⟨by omega, hp,
      assemble.decodeLoop_step env i mnemonicWords fuel j shard (by omega) (by omega) chunk hd _ hp⟩
  · intro L hL hlast
    refine ⟨assemble.payload_take chunk hWF hlen L hlast (by omega), ?_⟩
    intro other hoWF holen holast htake
    rw [assemble.payload_take chunk hWF hlen L hlast (by omega),
      assemble.payload_take other hoWF holen L holast (by omega), htake]

/-- The theorem of C18 at the toy codec and the 15 words of `chunk20`, whose last byte
is 20. -/
theorem length_byte_20_and_padding_witness :
    (Slice.ofList toy.chunk20).bytes.length = 20 ∧
      assemble.payload (Slice.ofList toy.chunk20) = .ok (Slice.ofList toy.chunk20).bytes :=
  have h := length_byte_20_and_padding toy.env 0
    (strings.Split (toy.NewMnemonic toy.chunk20).1 32) 14 0 [] (Slice.ofList toy.chunk20)
    (by decide) (by decide) (by decide) (by decide)
  ⟨(h.1 (by decide)).1, (h.1 (by decide)).2.1⟩

end ShardSecretPhrase
